import Mathlib

/-!
Shallow embedding of the SRT-Lyric-Sync core (src/utils/srtUtils.ts,
src/components/SrtDisplay.tsx, src/App.tsx, src/services/geminiService.ts).
Strings are modelled as `List Char`; JavaScript numbers used for millisecond
arithmetic are modelled as `Int` (negative intermediate values occur), and
sequence indices as `Int`.
-/

/-- JS `\s` character class (ECMAScript WhiteSpace and LineTerminator code
points), used by `String.prototype.trim`, `parseInt` leading-space skipping
and the `\s` atoms of the regexes in srtUtils.ts. -/
def jsWs (c : Char) : Bool :=
  decide (c.toNat = 32 ∨ (9 ≤ c.toNat ∧ c.toNat ≤ 13) ∨ c.toNat = 160 ∨
    c.toNat = 5760 ∨ (8192 ≤ c.toNat ∧ c.toNat ≤ 8202) ∨ c.toNat = 8232 ∨
    c.toNat = 8233 ∨ c.toNat = 8239 ∨ c.toNat = 8287 ∨ c.toNat = 12288 ∨
    c.toNat = 65279)

/-- Regex `\d`. -/
def isDigit (c : Char) : Bool := decide (48 ≤ c.toNat ∧ c.toNat ≤ 57)

/-- Numeric value of a digit character. -/
def dVal (c : Char) : Nat := c.toNat - 48

/-- The decimal digit characters (used to model JS `String(n)`). -/
def dc : Nat → Char
  | 0 => '0' | 1 => '1' | 2 => '2' | 3 => '3' | 4 => '4'
  | 5 => '5' | 6 => '6' | 7 => '7' | 8 => '8' | _ => '9'

/-- Fuel-driven decimal rendering of a natural number (JS `String(n)` for a
non-negative integer `n`). -/
def natToCharsAux : Nat → Nat → List Char
  | 0, _ => []
  | fuel + 1, n => if n < 10 then [dc n] else natToCharsAux fuel (n / 10) ++ [dc (n % 10)]

/-- JS `String(n)` for a non-negative integer. -/
def natToChars (n : Nat) : List Char := natToCharsAux (n + 1) n

/-- JS `String(i)` for an integer. -/
def intToChars (i : Int) : List Char :=
  if i < 0 then '-' :: natToChars i.natAbs else natToChars i.toNat

/-- Value of a digit string (used to model `parseInt` on an all-digit prefix). -/
def digitsVal (cs : List Char) : Nat := cs.foldl (fun a c => 10 * a + dVal c) 0

/-- Splits an optional leading sign from an already-trimmed `parseInt` input. -/
def signSplit (t : List Char) : Bool × List Char :=
  match t with
  | [] => (false, [])
  | c :: r => if c = '-' then (true, r) else if c = '+' then (false, r) else (false, c :: r)

/-- JS `parseInt(s, 10)`: skip leading whitespace, optional sign, then the
maximal digit prefix; `none` models `NaN`. -/
def parseIntJS (cs : List Char) : Option Int :=
  let t := cs.dropWhile jsWs
  let p := signSplit t
  let d := p.2.takeWhile isDigit
  if d = [] then none
  else some (if p.1 then -(digitsVal d : Int) else (digitsVal d : Int))

/-- JS `String.prototype.trim`. -/
def jsTrim (cs : List Char) : List Char :=
  ((cs.dropWhile jsWs).reverse.dropWhile jsWs).reverse

/-- Prepends a character onto the first piece of a split result. -/
def consHead (c : Char) : List (List Char) → List (List Char)
  | [] => [[c]]
  | l :: ls => (c :: l) :: ls

/-- JS `s.split(/\r?\n/)`: the leftmost match of `\r?\n` separates (a `\r`
immediately followed by `\n` is consumed with it). -/
def splitNl : List Char → List (List Char)
  | [] => [[]]
  | c :: rest =>
    if c = '\n' then [] :: splitNl rest
    else if c = '\r' then
      match rest with
      | [] => [['\r']]
      | d :: rest2 =>
        if d = '\n' then [] :: splitNl rest2
        else consHead c (splitNl (d :: rest2))
    else consHead c (splitNl rest)

/-- JS `s.split(':')`. -/
def splitColon : List Char → List (List Char)
  | [] => [[]]
  | c :: rest =>
    if c = ':' then [] :: splitColon rest else consHead c (splitColon rest)

/-- JS `s.replace(/\r?\n/g, '\r\n')`. -/
def crlfNl : List Char → List Char
  | [] => []
  | c :: rest =>
    if c = '\n' then '\r' :: '\n' :: crlfNl rest
    else if c = '\r' then
      match rest with
      | [] => ['\r']
      | d :: rest2 =>
        if d = '\n' then '\r' :: '\n' :: crlfNl rest2
        else c :: crlfNl (d :: rest2)
    else c :: crlfNl rest

/-- Line-ending normalization: every `\r\n` or `\n` becomes `\n`. -/
def normNl : List Char → List Char
  | [] => []
  | c :: rest =>
    if c = '\n' then '\n' :: normNl rest
    else if c = '\r' then
      match rest with
      | [] => ['\r']
      | d :: rest2 =>
        if d = '\n' then '\n' :: normNl rest2
        else c :: normNl (d :: rest2)
    else c :: normNl rest

/-- JS `Array.prototype.join(sep)` over string pieces. -/
def interc (sep : List Char) : List (List Char) → List Char
  | [] => []
  | [x] => x
  | x :: y :: rest => x ++ sep ++ interc sep (y :: rest)

/-- Millisecond-separator characters of the regex `(.*)([.,:])(\d{1,3})$`
in `normalizeTimestamp`. -/
def sepChar (c : Char) : Bool := c = '.' || c = ',' || c = ':'

/-- Whether, reading the (reversed) input, the last `j` characters are digits
and the character before them is a millisecond separator. -/
def msTryJ (rev : List Char) (j : Nat) : Bool :=
  ((rev.take j).all isDigit) &&
    (match rev.drop j with
     | s :: _ => sepChar s
     | [] => false)

/-- The match of `(.*)([.,:])(\d{1,3})$` on the trimmed timestamp: the greedy
`(.*)` makes the digit group as short as possible, so the separator is the
latest one followed only by (1 to 3) digits.  Returns `(timePart, msPart)`;
on no match, `msPart` defaults to `"000"` as in the source. -/
def msSplit (t : List Char) : List Char × List Char :=
  let rev := t.reverse
  if msTryJ rev 1 then ((rev.drop 2).reverse, (rev.take 1).reverse)
  else if msTryJ rev 2 then ((rev.drop 3).reverse, (rev.take 2).reverse)
  else if msTryJ rev 3 then ((rev.drop 4).reverse, (rev.take 3).reverse)
  else (t, ['0', '0', '0'])

/-- JS `String(x).padStart(k, '0')` (on an already-rendered string). -/
def padS (k : Nat) (cs : List Char) : List Char :=
  List.replicate (k - cs.length) '0' ++ cs

/-- JS `msPart.padEnd(3, '0').substring(0, 3)`. -/
def padMsE (cs : List Char) : List Char :=
  (cs ++ List.replicate (3 - cs.length) '0').take 3

/-- `parseInt(s, 10) || 0`: `NaN` becomes `0`. -/
def pOr0 (seg : List Char) : Int := (parseIntJS seg).getD 0

/-- Seconds/minutes rollover of `normalizeTimestamp` (both `if` blocks).
JS `Math.floor(x / 60)` and `x % 60` agree with `Int.div`/`Int.emod` here
because they are only taken when `x >= 60`. -/
def rollover (h m s : Int) : Int × Int × Int :=
  let p := if s ≥ 60 then (m + s / 60, s % 60) else (m, s)
  let q := if p.1 ≥ 60 then (h + p.1 / 60, p.1 % 60) else (h, p.1)
  (q.1, q.2, p.2)

/-- The zero timestamp `00:00:00,000`. -/
def zeroTs : List Char := "00:00:00,000".data

/-- The hours/minutes/seconds assignment of `normalizeTimestamp` (lines
38-47): 3 segments are H:M:S, 2 are M:S, 1 is bare seconds, anything else
is all zero. -/
def segVals : List (List Char) → Int × Int × Int
  | [a, b, c] => (pOr0 a, pOr0 b, pOr0 c)
  | [a, b] => (0, pOr0 a, pOr0 b)
  | [a] => (0, 0, pOr0 a)
  | _ => (0, 0, 0)

/-- The anchored regex `^\d{2}:\d{2}:\d{2},\d{3}$`. -/
def isCanonShape : List Char → Bool
  | [a, b, c2, d, e, f2, g, h, i2, j, k2, l] =>
    isDigit a && isDigit b && (c2 = ':') && isDigit d && isDigit e && (f2 = ':') &&
      isDigit g && isDigit h && (i2 = ',') && isDigit j && isDigit k2 && isDigit l
  | _ => false

/-- `normalizeTimestamp` from src/utils/srtUtils.ts (lines 15-65). -/
def normalizeTimestamp (ts : List Char) : List Char :=
  if ts = [] then zeroTs
  else
    let t := jsTrim ts
    let ms := msSplit t
    let segs := ((splitColon ms.1).map jsTrim).filter (fun s => s ≠ [])
    let v := segVals segs
    let r := rollover v.1 v.2.1 v.2.2
    padS 2 (intToChars r.1) ++ ':' ::
      (padS 2 (intToChars r.2.1) ++ ':' ::
        (padS 2 (intToChars r.2.2) ++ ',' :: padMsE ms.2))

/-- One attempted match of `(\d{2}):(\d{2}):(\d{2}),(\d{3})` at the head of
the string. -/
def tsHere : List Char → Option (Nat × Nat × Nat × Nat)
  | a :: b :: ':' :: c :: d :: ':' :: e :: f :: ',' :: g :: h :: i :: _ =>
    if isDigit a && isDigit b && isDigit c && isDigit d && isDigit e &&
        isDigit f && isDigit g && isDigit h && isDigit i then
      some (10 * dVal a + dVal b, 10 * dVal c + dVal d, 10 * dVal e + dVal f,
        100 * dVal g + 10 * dVal h + dVal i)
    else none
  | _ => none

/-- Leftmost match of `(\d{2}):(\d{2}):(\d{2}),(\d{3})` anywhere in the
string (the regex of `timestampToMs` carries no anchors). -/
def tsScan : List Char → Option (Nat × Nat × Nat × Nat)
  | [] => none
  | c :: rest =>
    match tsHere (c :: rest) with
    | some v => some v
    | none => tsScan rest

/-- `timestampToMs` from src/utils/srtUtils.ts (lines 73-79). -/
def timestampToMs (ts : List Char) : Int :=
  match tsScan (normalizeTimestamp ts) with
  | none => 0
  | some (h, m, s, ms) => (((h * 3600 + m * 60 + s) * 1000 + ms : Nat) : Int)

/-- `msToTimestamp` from src/utils/srtUtils.ts (lines 86-101). -/
def msToTimestamp (totalMs : Int) : List Char :=
  let n : Nat := if totalMs < 0 then 0 else totalMs.toNat
  let ms := n % 1000
  let ts := n / 1000
  let s := ts % 60
  let tm := ts / 60
  let m := tm % 60
  let h := tm / 60
  padS 2 (natToChars h) ++ ':' ::
    (padS 2 (natToChars m) ++ ':' ::
      (padS 2 (natToChars s) ++ ',' :: padS 3 (natToChars ms)))

/-- The canonical 12-character timestamp rendering (two digits per time
field, three millisecond digits); matches `msToTimestamp` output whenever
the hour count fits in two digits. -/
def mkTs (h m s ms : Nat) : List Char :=
  dc (h / 10) :: dc (h % 10) :: ':' ::
    dc (m / 10) :: dc (m % 10) :: ':' ::
      dc (s / 10) :: dc (s % 10) :: ',' ::
        dc (ms / 100) :: dc (ms / 10 % 10) :: dc (ms % 10) :: []

/-- `SrtEntryData` from src/utils/srtUtils.ts. -/
structure SrtEntryData where
  index : Int
  startTime : List Char
  endTime : List Char
  text : List Char
deriving DecidableEq, Repr

/-- Match of a leading `\r?\n` (with its length); the greedy `\r?` cannot
fall back to matching `\n` against `\r`, so a `\r` not followed by `\n`
fails. -/
def nlLen : List Char → Option Nat
  | [] => none
  | [c] => if c = '\n' then some 1 else none
  | c :: d :: _ =>
    if c = '\n' then some 1
    else if c = '\r' ∧ d = '\n' then some 2
    else none

/-- Length of the leftmost, greedy match of `/\r?\n\s*\r?\n/` at the head of
the string, if any: a leading `\r?\n`, then the whitespace run up to and
including its last `\n` (the greedy `\s*` backtracks just enough to leave a
final `\r?\n`; since `\n` is itself whitespace, the final `\r?\n` consumes
the last newline of the run, and no match exists when the run has none). -/
def matchSepLen (cs : List Char) : Option Nat :=
  match nlLen cs with
  | none => none
  | some k =>
    let w := (cs.drop k).takeWhile jsWs
    let ri := w.reverse.indexOf '\n'
    if ri < w.length then some (k + (w.length - 1 - ri) + 1) else none

/-- One pass of JS `String.prototype.split` with the separator regex
`/\r?\n\s*\r?\n/`; `fuel` bounds the recursion (each step consumes at least
one character, so `cs.length` fuel suffices). -/
def splitSepAux : Nat → List Char → List Char → List (List Char)
  | 0, cs, acc => [acc.reverse ++ cs]
  | fuel + 1, cs, acc =>
    match cs with
    | [] => [acc.reverse]
    | c :: rest =>
      match matchSepLen (c :: rest) with
      | some k => acc.reverse :: splitSepAux fuel ((c :: rest).drop k) []
      | none => splitSepAux fuel rest (c :: acc)

/-- JS `content.split(/\r?\n\s*\r?\n/)`. -/
def splitBlocks (cs : List Char) : List (List Char) := splitSepAux cs.length cs []

/-- Whether the string begins with `-->`. -/
def isArrowHead (cs : List Char) : Bool := decide (cs.take 3 = ['-', '-', '>'])

/-- Splits a subtitle timing line around the first `-->`; models the lazy
group of `/(.*?)\s*-->\s*(.*)/` (before, after). -/
def findArrow : List Char → Option (List Char × List Char)
  | [] => none
  | c :: rest =>
    if isArrowHead (c :: rest) then some ([], (c :: rest).drop 3)
    else (findArrow rest).map (fun p => (c :: p.1, p.2))

/-- The two capture groups of `/(.*?)\s*-->\s*(.*)/`: text before the first
`-->` with trailing whitespace removed, and text after it with leading
whitespace removed. -/
def arrowMatch (line : List Char) : Option (List Char × List Char) :=
  (findArrow line).map (fun p =>
    ((p.1.reverse.dropWhile jsWs).reverse, p.2.dropWhile jsWs))

/-- Parsing of one SRT block inside `parseSrt` (lines 110-124): at least two
lines, an integer first line, a `-->` second line; remaining lines joined
with `\n` form the text. -/
def parseBlock (b : List Char) : Option SrtEntryData :=
  match splitNl (jsTrim b) with
  | l0 :: l1 :: rest =>
    match parseIntJS l0 with
    | none => none
    | some idx =>
      match arrowMatch l1 with
      | none => none
      | some g =>
        some { index := idx, startTime := normalizeTimestamp g.1,
               endTime := normalizeTimestamp g.2, text := interc ['\n'] rest }
  | _ => none

/-- `parseSrt` from src/utils/srtUtils.ts (lines 104-126). -/
def parseSrt (srtContent : List Char) : List SrtEntryData :=
  if srtContent = [] then []
  else (splitBlocks (jsTrim srtContent)).filterMap parseBlock

/-- One serialized SRT block of `serializeSrt` (display index, normalized
timestamps, text with line breaks converted to CRLF). -/
def mkBlock (n : Nat) (e : SrtEntryData) : List Char :=
  natToChars n ++ '\r' :: '\n' ::
    (normalizeTimestamp e.startTime ++ ' ' :: '-' :: '-' :: '>' :: ' ' ::
      (normalizeTimestamp e.endTime ++ '\r' :: '\n' :: crlfNl e.text))

/-- The blocks of `serializeSrt`, with display indices re-derived from array
position starting at `n`. -/
def serializeSrtAux : Nat → List SrtEntryData → List (List Char)
  | _, [] => []
  | n, e :: es => mkBlock n e :: serializeSrtAux (n + 1) es

/-- `serializeSrt` from src/utils/srtUtils.ts (lines 198-216). -/
def serializeSrt (entries : List SrtEntryData) : List Char :=
  interc ['\r', '\n', '\r', '\n'] (serializeSrtAux 1 entries)

/-- JS `Array.prototype.findIndex` (`none` models `-1`). -/
def jsFindIndex (p : SrtEntryData → Bool) : List SrtEntryData → Option Nat
  | [] => none
  | e :: es => if p e then some 0 else (jsFindIndex p es).map (· + 1)

/-- JS `.map((e, i) => ({ ...e, index: i + 1 }))` starting at display index `n`. -/
def reindexFrom : Int → List SrtEntryData → List SrtEntryData
  | _, [] => []
  | n, e :: es => { e with index := n } :: reindexFrom (n + 1) es

/-- Re-derivation of dense sequence numbers from array position. -/
def reindex (es : List SrtEntryData) : List SrtEntryData := reindexFrom 1 es

/-- `handleDelete` from src/components/SrtDisplay.tsx (lines 119-124). -/
def handleDelete (entries : List SrtEntryData) (index : Int) : List SrtEntryData :=
  reindex (entries.filter (fun e => e.index ≠ index))

/-- Swap of two array positions (JS destructuring swap). -/
def swapAt (l : List SrtEntryData) (a b : Nat) : List SrtEntryData :=
  match l.get? a, l.get? b with
  | some x, some y => (l.set a y).set b x
  | _, _ => l

/-- `handleMove` from src/components/SrtDisplay.tsx (lines 126-140); `up`
selects direction `'up'`.  `targetIndex >= 0 && targetIndex < length` is the
source bounds check. -/
def handleMove (entries : List SrtEntryData) (originalIndex : Int) (up : Bool) : List SrtEntryData :=
  match jsFindIndex (fun e => e.index = originalIndex) entries with
  | none => entries
  | some ai =>
    if up then
      if 0 < ai then reindex (swapAt entries ai (ai - 1)) else entries
    else
      if ai + 1 < entries.length then reindex (swapAt entries ai (ai + 1)) else entries

/-- `handleInsert` from src/components/SrtDisplay.tsx (lines 142-162). -/
def handleInsert (entries : List SrtEntryData) (afterIndex : Int) : List SrtEntryData :=
  match jsFindIndex (fun e => e.index = afterIndex) entries with
  | none => entries
  | some ai =>
    match entries.get? ai with
    | none => entries
    | some prev =>
      let newEntry : SrtEntryData :=
        { index := 0, startTime := prev.endTime, endTime := prev.endTime,
          text := "New subtitle".data }
      reindex (entries.take (ai + 1) ++ newEntry :: entries.drop (ai + 1))

/-- `handleMerge` from src/components/SrtDisplay.tsx (lines 164-187): text of
the merged entry is the *joined* text trimmed as a whole
(`` `${e1.text}\n${e2.text}`.trim() ``). -/
def handleMerge (entries : List SrtEntryData) (indexToMerge : Int) : List SrtEntryData :=
  match jsFindIndex (fun e => e.index = indexToMerge) entries with
  | none => entries
  | some ai =>
    if ai + 1 ≥ entries.length then entries
    else
      match entries.get? ai, entries.get? (ai + 1) with
      | some e1, some e2 =>
        let merged : SrtEntryData :=
          { e1 with endTime := e2.endTime, text := jsTrim (e1.text ++ '\n' :: e2.text) }
        reindex (entries.take ai ++ merged :: entries.drop (ai + 2))
      | _, _ => entries

/-- `handleSplit` from src/components/SrtDisplay.tsx (lines 189-238).
`Math.round(durationMs * (splitAt / textLength))` is modelled as exact
rational rounding (round-half-up), `(2 * dur * off + len) / (2 * len)`;
the source computes it in IEEE doubles. -/
def handleSplit (entries : List SrtEntryData) (indexToSplit : Int) (splitOff : Int) : List SrtEntryData :=
  match jsFindIndex (fun e => e.index = indexToSplit) entries with
  | none => entries
  | some ai =>
    match entries.get? ai with
    | none => entries
    | some orig =>
      if splitOff ≤ 0 ∨ splitOff ≥ (orig.text.length : Int) then entries
      else
        let text1 := jsTrim (orig.text.take splitOff.toNat)
        let text2 := jsTrim (orig.text.drop splitOff.toNat)
        if text1 = [] ∨ text2 = [] then entries
        else
          let startTimeMs := timestampToMs orig.startTime
          let endTimeMs := timestampToMs orig.endTime
          let durationMs := endTimeMs - startTimeMs
          let splitTimeMs :=
            if durationMs > 0 then
              startTimeMs + (2 * durationMs * splitOff + (orig.text.length : Int)) /
                (2 * (orig.text.length : Int))
            else startTimeMs
          let upd := { orig with endTime := msToTimestamp splitTimeMs, text := text1 }
          let newE : SrtEntryData :=
            { index := 0, startTime := msToTimestamp splitTimeMs,
              endTime := orig.endTime, text := text2 }
          reindex (entries.take ai ++ upd :: newE :: entries.drop (ai + 1))

/-- `handleSetTimeToCurrent` from src/App.tsx (lines 347-409); `isStart`
selects field `'startTime'`.  `currentTimeMs` stands for
`videoRef.current.currentTime * 1000` (the claims below only depend on the
integer control flow). -/
def handleSetTimeToCurrent (currentTimeMs : Int) (entries : List SrtEntryData)
    (entryIndex : Int) (isStart : Bool) : List SrtEntryData :=
  match jsFindIndex (fun e => e.index = entryIndex) entries with
  | none => entries
  | some ai =>
    match entries.get? ai with
    | none => entries
    | some e =>
      if isStart then
        let durationMs := max 0 (timestampToMs e.endTime - timestampToMs e.startTime)
        let ns0 := currentTimeMs
        let ns1 :=
          if 0 < ai then
            match entries.get? (ai - 1) with
            | some p => max ns0 (timestampToMs p.endTime)
            | none => ns0
          else ns0
        let ne0 := ns1 + durationMs
        let r : Int × Int :=
          if ai + 1 < entries.length then
            match entries.get? (ai + 1) with
            | some nx =>
              let ne1 := min ne0 (timestampToMs nx.startTime)
              (if ns1 > ne1 then ne1 else ns1, ne1)
            | none => (ns1, ne0)
          else (ns1, ne0)
        entries.set ai { e with startTime := msToTimestamp r.1, endTime := msToTimestamp r.2 }
      else
        let ne0 := max currentTimeMs (timestampToMs e.startTime)
        let ne1 :=
          if ai + 1 < entries.length then
            match entries.get? (ai + 1) with
            | some nx => min ne0 (timestampToMs nx.startTime)
            | none => ne0
          else ne0
        entries.set ai { e with endTime := msToTimestamp ne1 }

/-- The slider state held beside the collection in App.tsx (`srtEntries`,
`offset`, `endTimePadding`). -/
structure AppTiming where
  entries : List SrtEntryData
  offset : Int
  endTimePadding : Int
deriving DecidableEq, Repr

/-- `handleOffsetChange` from src/App.tsx (lines 302-316). -/
def handleOffsetChange (st : AppTiming) (newOffsetValue : Int) : AppTiming :=
  let diff := newOffsetValue - st.offset
  if diff = 0 then st
  else
    { st with
      entries := st.entries.map (fun e =>
        { e with
          startTime := msToTimestamp (timestampToMs e.startTime + diff),
          endTime := msToTimestamp (timestampToMs e.endTime + diff) }),
      offset := newOffsetValue }

/-- Per-entry end-time update of `handleEndTimePaddingChange`; `next` is the
following entry of the *original* array, when one exists. -/
def padOne (diff : Int) (next : Option SrtEntryData) (e : SrtEntryData) : SrtEntryData :=
  let startTimeMs := timestampToMs e.startTime
  let ne0 := max startTimeMs (timestampToMs e.endTime + diff)
  let ne1 :=
    if diff > 0 then
      match next with
      | some nx => min ne0 (timestampToMs nx.startTime)
      | none => ne0
    else ne0
  { e with endTime := msToTimestamp ne1 }

/-- The `.map` body of `handleEndTimePaddingChange`, pairing each entry with
the next entry of the original array. -/
def padMap (diff : Int) : List SrtEntryData → List SrtEntryData
  | [] => []
  | [e] => [padOne diff none e]
  | e :: e2 :: rest => padOne diff (some e2) e :: padMap diff (e2 :: rest)

/-- `handleEndTimePaddingChange` from src/App.tsx (lines 318-345). -/
def handleEndTimePaddingChange (st : AppTiming) (newPadding : Int) : AppTiming :=
  let diff := newPadding - st.endTimePadding
  if diff = 0 then st
  else { st with entries := padMap diff st.entries, endTimePadding := newPadding }

/-- Match of `\[(\d{2}:\d{2}\.\d{2})\]` at the head of an LRC line, returning
the start milliseconds (as computed by `lrcTimestampToMs` on the captured
group, which it matches in full) and the text after the bracket. -/
def lrcHere : List Char → Option (Nat × List Char)
  | '[' :: a :: b :: ':' :: c :: d :: '.' :: e :: f :: ']' :: rest =>
    if isDigit a && isDigit b && isDigit c && isDigit d && isDigit e && isDigit f then
      some (((10 * dVal a + dVal b) * 60 + (10 * dVal c + dVal d)) * 1000 +
        (10 * dVal e + dVal f) * 10, rest)
    else none
  | _ => none

/-- Leftmost match of the LRC line regex `/\[(\d{2}:\d{2}\.\d{2})\](.*)/`. -/
def lrcScanLine : List Char → Option (Nat × List Char)
  | [] => none
  | c :: rest =>
    match lrcHere (c :: rest) with
    | some v => some v
    | none => lrcScanLine rest

/-- The `timedLines` list collected by `parseLrc` (lines 163-177): matching
lines whose text after the bracket is non-empty once trimmed, in file order. -/
def lrcTimedLines (content : List Char) : List (Nat × List Char) :=
  (splitNl (jsTrim content)).filterMap (fun line =>
    match lrcScanLine line with
    | none => none
    | some (t, txt) =>
      let tt := jsTrim txt
      if tt = [] then none else some (t, tt))

/-- The `timedLines.map` of `parseLrc` (lines 181-194): end time is the next
line's start, or start + 3000 for the last line. -/
def buildLrc : Nat → List (Nat × List Char) → List SrtEntryData
  | _, [] => []
  | n, [(t, tx)] =>
    [{ index := n, startTime := msToTimestamp (t : Int),
       endTime := msToTimestamp ((t : Int) + 3000), text := tx }]
  | n, (t, tx) :: (t2, tx2) :: rest =>
    { index := n, startTime := msToTimestamp (t : Int),
      endTime := msToTimestamp (t2 : Int), text := tx } ::
      buildLrc (n + 1) ((t2, tx2) :: rest)

/-- `parseLrc` from src/utils/srtUtils.ts (lines 160-195). -/
def parseLrc (content : List Char) : List SrtEntryData :=
  if content = [] then [] else buildLrc 1 (lrcTimedLines content)

/-- Error message of the refine entry-count check (geminiService.ts line 210). -/
def refineCountMsg : List Char :=
  "The AI failed to follow instructions and changed the number of subtitle lines. Please try again.".data

/-- Error message of the empty-result check in `processAiResponse`
(geminiService.ts line 89). -/
def refineEmptyMsg : List Char :=
  "The AI returned an empty list of subtitles.".data

/-- The validated-array tail of `processAiResponse` (geminiService.ts lines
88-99): an empty list is an error; otherwise both timestamps of every item
are normalized. -/
def processAiEntries (items : List SrtEntryData) : Except (List Char) (List SrtEntryData) :=
  if items = [] then Except.error refineEmptyMsg
  else Except.ok (items.map (fun e =>
    { e with startTime := normalizeTimestamp e.startTime,
             endTime := normalizeTimestamp e.endTime }))

/-- The response handling of `refineSrtTimings` (geminiService.ts lines
204-224): count mismatch is a hard error; otherwise each original entry is
paired positionally with the i-th refined entry, keeping the original index
and text (`currentEntries.map((originalEntry, i) => ...)`, which with equal
lengths is a `zipWith`). -/
def refineSrtTimingsCore (currentEntries aiItems : List SrtEntryData) :
    Except (List Char) (List SrtEntryData) :=
  match processAiEntries aiItems with
  | Except.error msg => Except.error msg
  | Except.ok refinedEntries =>
    if refinedEntries.length ≠ currentEntries.length then Except.error refineCountMsg
    else Except.ok (List.zipWith
      (fun originalEntry refined =>
        { originalEntry with startTime := refined.startTime, endTime := refined.endTime })
      currentEntries refinedEntries)

/-- The effect of `handleRefine` (App.tsx lines 272-285) on the current
collection: a failed refine leaves the collection untouched, a successful
one replaces it. -/
def commitRefine (entries : List SrtEntryData)
    (r : Except (List Char) (List SrtEntryData)) : List SrtEntryData :=
  match r with
  | Except.error _ => entries
  | Except.ok es => es

/-- A timestamp string is canonical when converting it to milliseconds and
back reproduces it exactly (and it denotes less than 100 hours, so that the
rendering has a two-digit hour field). -/
def canonTs (ts : List Char) : Bool :=
  decide (timestampToMs ts < 360000000) &&
    decide (msToTimestamp (timestampToMs ts) = ts)

/-- Text whose every line (under `\r?\n` splitting) contains a non-whitespace
character and whose final character is not whitespace. -/
def goodText (t : List Char) : Bool :=
  ((splitNl t).all (fun L => L.any (fun c => !jsWs c))) &&
    (match t.getLast? with
     | some c => !jsWs c
     | none => true)

/-- Dense 1-based sequence numbers: the entry at array position i carries
index i+1. -/
def wellIndexedFrom : Int → List SrtEntryData → Bool
  | _, [] => true
  | n, e :: es => (e.index = n) && wellIndexedFrom (n + 1) es

/-- The positional-consistency invariant of the collection. -/
def wellIndexed (entries : List SrtEntryData) : Bool := wellIndexedFrom 1 entries

/-- Start times non-decreasing in array order (time-sorted collection). -/
def startsMono : List SrtEntryData → Bool
  | [] => true
  | [_] => true
  | e :: e2 :: rest =>
    decide (timestampToMs e.startTime ≤ timestampToMs e2.startTime) &&
      startsMono (e2 :: rest)

/-- Well-formedness of an entry as hypothesised by the round-trip property:
canonical timestamps, start not after end, and well-behaved text. -/
def wfEntry (e : SrtEntryData) : Bool :=
  canonTs e.startTime && canonTs e.endTime &&
    decide (timestampToMs e.startTime ≤ timestampToMs e.endTime) && goodText e.text

/-- Expected result of re-parsing a serialized collection: display indices
1..N, original times, text with line endings normalized. -/
def expectedParse : Nat → List SrtEntryData → List SrtEntryData
  | _, [] => []
  | n, e :: es =>
    { index := (n : Int), startTime := e.startTime, endTime := e.endTime,
      text := normNl e.text } :: expectedParse (n + 1) es

/-- The sequence number a block contributes to `parseSrt`: the verbatim
`parseInt` of its first line, provided the block is accepted (two lines and
a `-->` match). -/
def blockIndex (b : List Char) : Option Int :=
  match splitNl (jsTrim b) with
  | l0 :: l1 :: _ =>
    match parseIntJS l0 with
    | none => none
    | some idx => if (arrowMatch l1).isSome then some idx else none
  | _ => none

/-! ### Character and decimal-string lemmas -/

theorem jsWs_eq_false_of_isDigit {c : Char} (h : isDigit c = true) : jsWs c = false := by
  simp only [isDigit, decide_eq_true_eq] at h
  simp only [jsWs, decide_eq_false_iff_not]
  omega

theorem char_ne_of_toNat_ne {c d : Char} (h : c.toNat ≠ d.toNat) : c ≠ d := by
  intro he
  exact h (by rw [he])

theorem isDigit_toNat {c : Char} (h : isDigit c = true) :
    48 ≤ c.toNat ∧ c.toNat ≤ 57 := by
  simpa only [isDigit, decide_eq_true_eq] using h

theorem sepChar_eq_false_of_isDigit {c : Char} (h : isDigit c = true) :
    sepChar c = false := by
  have h' := isDigit_toNat h
  simp only [sepChar, Bool.or_eq_false_iff, decide_eq_false_iff_not]
  refine ⟨⟨char_ne_of_toNat_ne ?_, char_ne_of_toNat_ne ?_⟩, char_ne_of_toNat_ne ?_⟩ <;>
    simp <;> omega

theorem dc_toNat {n : Nat} (h : n ≤ 9) : (dc n).toNat = 48 + n := by
  interval_cases n <;> rfl

theorem isDigit_dc {n : Nat} (h : n ≤ 9) : isDigit (dc n) = true := by
  interval_cases n <;> rfl

theorem dVal_dc {n : Nat} (h : n ≤ 9) : dVal (dc n) = n := by
  interval_cases n <;> rfl

theorem natToCharsAux_congr : ∀ (n f g : Nat), n < f → n < g →
    natToCharsAux f n = natToCharsAux g n := by
  intro n
  induction n using Nat.strong_induction_on with
  | _ n ih =>
    intro f g hf hg
    match f, g with
    | f + 1, g + 1 =>
      simp only [natToCharsAux]
      by_cases h10 : n < 10
      · simp [h10]
      · simp only [h10, if_false]
        have hlt : n / 10 < n := Nat.div_lt_self (by omega) (by omega)
        rw [ih (n / 10) hlt f g (by omega) (by omega)]

theorem natToChars_eq (n : Nat) : natToChars n =
    if n < 10 then [dc n] else natToChars (n / 10) ++ [dc (n % 10)] := by
  have hstep : natToChars n =
      if n < 10 then [dc n] else natToCharsAux n (n / 10) ++ [dc (n % 10)] := rfl
  rw [hstep]
  by_cases h10 : n < 10
  · simp [h10]
  · simp only [h10, if_false]
    rw [natToCharsAux_congr (n / 10) n (n / 10 + 1)
      (Nat.div_lt_self (by omega) (by omega)) (by omega)]
    rfl

theorem natToChars_lt10 {n : Nat} (h : n < 10) : natToChars n = [dc n] := by
  rw [natToChars_eq, if_pos h]

theorem natToChars_two {n : Nat} (h1 : 10 ≤ n) (h2 : n ≤ 99) :
    natToChars n = [dc (n / 10), dc (n % 10)] := by
  rw [natToChars_eq, if_neg (by omega), natToChars_lt10 (by omega)]
  rfl

theorem natToChars_ne_nil (n : Nat) : natToChars n ≠ [] := by
  rw [natToChars_eq]
  by_cases h10 : n < 10 <;> simp [h10]

theorem natToChars_digits : ∀ (n : Nat), ∀ c ∈ natToChars n, isDigit c = true := by
  intro n
  induction n using Nat.strong_induction_on with
  | _ n ih =>
    intro c hc
    rw [natToChars_eq] at hc
    by_cases h10 : n < 10
    · rw [if_pos h10] at hc
      simp only [List.mem_singleton] at hc
      subst hc
      exact isDigit_dc (by omega)
    · rw [if_neg h10] at hc
      rcases List.mem_append.mp hc with h | h
      · exact ih (n / 10) (Nat.div_lt_self (by omega) (by omega)) c h
      · simp only [List.mem_singleton] at h
        subst h
        exact isDigit_dc (Nat.le_of_lt_succ (Nat.mod_lt _ (by omega)))

theorem padS2_natToChars {n : Nat} (h : n ≤ 99) :
    padS 2 (natToChars n) = [dc (n / 10), dc (n % 10)] := by
  by_cases h10 : n < 10
  · rw [natToChars_lt10 h10]
    have h1 : n / 10 = 0 := by omega
    have h2 : n % 10 = n := by omega
    simp [padS, h1, h2, List.replicate]
    rfl
  · rw [natToChars_two (by omega) h]
    simp [padS]

theorem padS3_natToChars {n : Nat} (h : n ≤ 999) :
    padS 3 (natToChars n) = [dc (n / 100), dc (n / 10 % 10), dc (n % 10)] := by
  by_cases h10 : n < 10
  · rw [natToChars_lt10 h10]
    have h1 : n / 100 = 0 := by omega
    have h2 : n / 10 % 10 = 0 := by omega
    have h3 : n % 10 = n := by omega
    simp [padS, h1, h2, h3, List.replicate]
    rfl
  · by_cases h100 : n < 100
    · rw [natToChars_two (by omega) (by omega)]
      have h1 : n / 100 = 0 := by omega
      have h2 : n / 10 % 10 = n / 10 := by omega
      simp [padS, h1, h2, List.replicate]
      rfl
    · rw [natToChars_eq, if_neg (by omega),
        natToChars_two (by omega : 10 ≤ n / 10) (by omega : n / 10 ≤ 99)]
      have h1 : n / 10 / 10 = n / 100 := by omega
      simp [padS, h1]

theorem isDigit_dc_any (n : Nat) : isDigit (dc n) = true := by
  rcases n with _|_|_|_|_|_|_|_|_|n <;> rfl

theorem isDigit_ne {c : Char} (h : isDigit c = true) :
    c ≠ ':' ∧ c ≠ ',' ∧ c ≠ '.' ∧ c ≠ '-' ∧ c ≠ '+' ∧ c ≠ '\n' ∧ c ≠ '\r' := by
  have h' := isDigit_toNat h
  refine ⟨char_ne_of_toNat_ne ?_, char_ne_of_toNat_ne ?_, char_ne_of_toNat_ne ?_,
    char_ne_of_toNat_ne ?_, char_ne_of_toNat_ne ?_, char_ne_of_toNat_ne ?_,
    char_ne_of_toNat_ne ?_⟩ <;> simp <;> omega

theorem dropWhile_eq_self_of_head {p : Char → Bool} {l : List Char}
    (h : ∀ c, l.head? = some c → p c = false) : l.dropWhile p = l := by
  cases l with
  | nil => rfl
  | cons c tl => simp [List.dropWhile_cons, h c rfl]

theorem takeWhile_eq_self_of_all {p : Char → Bool} :
    ∀ {l : List Char}, (∀ c ∈ l, p c = true) → l.takeWhile p = l := by
  intro l
  induction l with
  | nil => intro _; rfl
  | cons c tl ih =>
    intro h
    have hc : p c = true := h c (by simp)
    simp [List.takeWhile_cons, hc, ih (fun d hd => h d (by simp [hd]))]

theorem jsTrim_of_ends {cs : List Char}
    (hhd : ∀ c, cs.head? = some c → jsWs c = false)
    (hlast : ∀ c, cs.getLast? = some c → jsWs c = false) : jsTrim cs = cs := by
  unfold jsTrim
  rw [dropWhile_eq_self_of_head hhd]
  rw [dropWhile_eq_self_of_head (by simpa [List.head?_reverse] using hlast)]
  exact cs.reverse_reverse

theorem digitsVal_two (a b : Char) : digitsVal [a, b] = 10 * dVal a + dVal b := by
  simp [digitsVal, List.foldl]

theorem parseIntJS_eq (cs : List Char) : parseIntJS cs =
    (if ((signSplit (cs.dropWhile jsWs)).2.takeWhile isDigit) = [] then none
     else some
       (if (signSplit (cs.dropWhile jsWs)).1 then
          -(digitsVal ((signSplit (cs.dropWhile jsWs)).2.takeWhile isDigit) : Int)
        else (digitsVal ((signSplit (cs.dropWhile jsWs)).2.takeWhile isDigit) : Int))) := rfl

theorem parseIntJS_digits {ds : List Char} (h1 : ds ≠ [])
    (h2 : ∀ c ∈ ds, isDigit c = true) : parseIntJS ds = some (digitsVal ds) := by
  obtain ⟨d, tl, rfl⟩ := List.exists_cons_of_ne_nil h1
  have hd := h2 d (by simp)
  have hne := isDigit_ne hd
  have hdrop : (d :: tl).dropWhile jsWs = d :: tl :=
    dropWhile_eq_self_of_head (by
      intro c hc
      simp only [List.head?_cons, Option.some_inj] at hc
      subst hc
      exact jsWs_eq_false_of_isDigit hd)
  have hsign : signSplit (d :: tl) = (false, d :: tl) := by
    simp [signSplit, hne.2.2.2.1, hne.2.2.2.2.1]
  rw [parseIntJS_eq, hdrop, hsign]
  simp only
  rw [takeWhile_eq_self_of_all h2]
  simp

theorem pOr0_two_digits {x y : Nat} (hx : x ≤ 9) (hy : y ≤ 9) :
    pOr0 [dc x, dc y] = ((10 * x + y : Nat) : Int) := by
  unfold pOr0
  rw [parseIntJS_digits (by simp)
    (by intro c hc
        simp only [List.mem_cons, List.not_mem_nil, or_false] at hc
        rcases hc with rfl | rfl
        · exact isDigit_dc_any _
        · exact isDigit_dc_any _)]
  rw [digitsVal_two, dVal_dc hx, dVal_dc hy]
  rfl

theorem intToChars_natCast (n : Nat) : intToChars ((n : Nat) : Int) = natToChars n := by
  simp [intToChars]

theorem msToTimestamp_eq (t : Int) : msToTimestamp t =
    padS 2 (natToChars ((if t < 0 then 0 else t.toNat) / 1000 / 60 / 60)) ++ ':' ::
      (padS 2 (natToChars ((if t < 0 then 0 else t.toNat) / 1000 / 60 % 60)) ++ ':' ::
        (padS 2 (natToChars ((if t < 0 then 0 else t.toNat) / 1000 % 60)) ++ ',' ::
          padS 3 (natToChars ((if t < 0 then 0 else t.toNat) % 1000)))) := rfl

theorem msToTimestamp_mkTs {h m s ms : Nat} (hh : h ≤ 99) (hm : m ≤ 59)
    (hs : s ≤ 59) (hms : ms ≤ 999) :
    msToTimestamp (((h * 3600 + m * 60 + s) * 1000 + ms : Nat) : Int) = mkTs h m s ms := by
  rw [msToTimestamp_eq]
  have hneg : ¬ ((((h * 3600 + m * 60 + s) * 1000 + ms : Nat) : Int) < 0) := by
    omega
  simp only [hneg, if_false, Int.toNat_natCast]
  have e1 : ((h * 3600 + m * 60 + s) * 1000 + ms) / 1000 / 60 / 60 = h := by omega
  have e2 : ((h * 3600 + m * 60 + s) * 1000 + ms) / 1000 / 60 % 60 = m := by omega
  have e3 : ((h * 3600 + m * 60 + s) * 1000 + ms) / 1000 % 60 = s := by omega
  have e4 : ((h * 3600 + m * 60 + s) * 1000 + ms) % 1000 = ms := by omega
  rw [e1, e2, e3, e4, padS2_natToChars hh, padS2_natToChars (by omega),
    padS2_natToChars (by omega), padS3_natToChars hms]
  rfl

theorem sepChar_dc (n : Nat) : sepChar (dc n) = false :=
  sepChar_eq_false_of_isDigit (isDigit_dc_any n)

theorem dc_ne_colon (n : Nat) : ¬ (dc n = ':') := (isDigit_ne (isDigit_dc_any n)).1

theorem dc_ne_comma (n : Nat) : ¬ (dc n = ',') := (isDigit_ne (isDigit_dc_any n)).2.1

theorem dc_ne_dot (n : Nat) : ¬ (dc n = '.') := (isDigit_ne (isDigit_dc_any n)).2.2.1

theorem jsWs_dc (n : Nat) : jsWs (dc n) = false :=
  jsWs_eq_false_of_isDigit (isDigit_dc_any n)

theorem mkTs_ne_nil (h m s ms : Nat) : mkTs h m s ms ≠ [] := by
  simp [mkTs]

theorem jsTrim_mkTs (h m s ms : Nat) : jsTrim (mkTs h m s ms) = mkTs h m s ms := by
  apply jsTrim_of_ends
  · intro c hc
    simp only [mkTs, List.head?_cons, Option.some_inj] at hc
    subst hc
    exact jsWs_dc _
  · intro c hc
    simp only [mkTs, List.getLast?_cons_cons, List.getLast?_singleton,
      Option.some_inj] at hc
    subst hc
    exact jsWs_dc _

theorem mkTs_reverse (h m s ms : Nat) : (mkTs h m s ms).reverse =
    [dc (ms % 10), dc (ms / 10 % 10), dc (ms / 100), ',', dc (s % 10), dc (s / 10),
     ':', dc (m % 10), dc (m / 10), ':', dc (h % 10), dc (h / 10)] := rfl

theorem msSplit_mkTs (h m s ms : Nat) : msSplit (mkTs h m s ms) =
    ([dc (h / 10), dc (h % 10), ':', dc (m / 10), dc (m % 10), ':',
      dc (s / 10), dc (s % 10)],
     [dc (ms / 100), dc (ms / 10 % 10), dc (ms % 10)]) := by
  simp only [msSplit, mkTs_reverse]
  simp [msTryJ, isDigit_dc_any, sepChar_dc, sepChar, dc_ne_colon, dc_ne_comma, dc_ne_dot]

theorem jsTrim_two_digits (x y : Nat) : jsTrim [dc x, dc y] = [dc x, dc y] := by
  apply jsTrim_of_ends
  · intro c hc
    simp only [List.head?_cons, Option.some_inj] at hc
    subst hc
    exact jsWs_dc _
  · intro c hc
    simp only [List.getLast?_cons_cons, List.getLast?_singleton, Option.some_inj] at hc
    subst hc
    exact jsWs_dc _

theorem splitColon_time (a b c d e f : Nat) :
    splitColon [dc a, dc b, ':', dc c, dc d, ':', dc e, dc f] =
      [[dc a, dc b], [dc c, dc d], [dc e, dc f]] := by
  simp [splitColon, consHead, dc_ne_colon]

theorem normalizeTimestamp_mkTs {h m s ms : Nat} (hh : h ≤ 99) (hm : m ≤ 59)
    (hs : s ≤ 59) :
    normalizeTimestamp (mkTs h m s ms) = mkTs h m s ms := by
  unfold normalizeTimestamp
  rw [if_neg (mkTs_ne_nil h m s ms)]
  simp only [jsTrim_mkTs, msSplit_mkTs, splitColon_time, List.map_cons, List.map_nil,
    jsTrim_two_digits, List.filter]
  have hsegs : ∀ x y : Nat, ([dc x, dc y] ≠ []) = True := by
    intro x y
    simp
  simp only [hsegs, decide_true_eq_true]
  simp only [segVals]
  simp only [pOr0_two_digits (by omega : h / 10 ≤ 9) (by omega : h % 10 ≤ 9),
    pOr0_two_digits (by omega : m / 10 ≤ 9) (by omega : m % 10 ≤ 9),
    pOr0_two_digits (by omega : s / 10 ≤ 9) (by omega : s % 10 ≤ 9)]
  have eh : 10 * (h / 10) + h % 10 = h := by omega
  have em : 10 * (m / 10) + m % 10 = m := by omega
  have es : 10 * (s / 10) + s % 10 = s := by omega
  rw [eh, em, es]
  simp only [rollover]
  rw [if_neg (by omega : ¬ ((s : Int) ≥ 60)), if_neg (by omega : ¬ ((m : Int) ≥ 60))]
  simp only [intToChars_natCast]
  rw [padS2_natToChars hh, padS2_natToChars (by omega), padS2_natToChars (by omega)]
  rfl

theorem tsHere_mkTs {h m s ms : Nat} (hh : h ≤ 99) (hm : m ≤ 59) (hs : s ≤ 59)
    (hms : ms ≤ 999) : tsHere (mkTs h m s ms) = some (h, m, s, ms) := by
  have hstep : tsHere (mkTs h m s ms) =
      if isDigit (dc (h / 10)) && isDigit (dc (h % 10)) && isDigit (dc (m / 10)) &&
          isDigit (dc (m % 10)) && isDigit (dc (s / 10)) && isDigit (dc (s % 10)) &&
          isDigit (dc (ms / 100)) && isDigit (dc (ms / 10 % 10)) && isDigit (dc (ms % 10)) then
        some (10 * dVal (dc (h / 10)) + dVal (dc (h % 10)),
          10 * dVal (dc (m / 10)) + dVal (dc (m % 10)),
          10 * dVal (dc (s / 10)) + dVal (dc (s % 10)),
          100 * dVal (dc (ms / 100)) + 10 * dVal (dc (ms / 10 % 10)) + dVal (dc (ms % 10)))
      else none := rfl
  rw [hstep]
  simp only [isDigit_dc_any, Bool.and_self, if_true]
  rw [dVal_dc (by omega), dVal_dc (by omega), dVal_dc (by omega), dVal_dc (by omega),
    dVal_dc (by omega), dVal_dc (by omega), dVal_dc (by omega), dVal_dc (by omega),
    dVal_dc (by omega)]
  have e1 : 10 * (h / 10) + h % 10 = h := by omega
  have e2 : 10 * (m / 10) + m % 10 = m := by omega
  have e3 : 10 * (s / 10) + s % 10 = s := by omega
  have e4 : 100 * (ms / 100) + 10 * (ms / 10 % 10) + ms % 10 = ms := by omega
  rw [e1, e2, e3, e4]

theorem tsScan_mkTs {h m s ms : Nat} (hh : h ≤ 99) (hm : m ≤ 59) (hs : s ≤ 59)
    (hms : ms ≤ 999) : tsScan (mkTs h m s ms) = some (h, m, s, ms) := by
  have hstep : tsScan (mkTs h m s ms) =
      match tsHere (mkTs h m s ms) with
      | some v => some v
      | none => tsScan (mkTs h m s ms).tail := rfl
  rw [hstep, tsHere_mkTs hh hm hs hms]

theorem timestampToMs_mkTs {h m s ms : Nat} (hh : h ≤ 99) (hm : m ≤ 59) (hs : s ≤ 59)
    (hms : ms ≤ 999) :
    timestampToMs (mkTs h m s ms) = (((h * 3600 + m * 60 + s) * 1000 + ms : Nat) : Int) := by
  unfold timestampToMs
  rw [normalizeTimestamp_mkTs hh hm hs, tsScan_mkTs hh hm hs hms]

theorem timestampToMs_nonneg (ts : List Char) : 0 ≤ timestampToMs ts := by
  unfold timestampToMs
  split
  · exact le_refl 0
  · exact Int.natCast_nonneg _

theorem roundtrip_ms_nat {n : Nat} (hn : n < 360000000) :
    timestampToMs (msToTimestamp ((n : Nat) : Int)) = ((n : Nat) : Int) := by
  have hde : n = ((n / 3600000) * 3600 + (n / 60000 % 60) * 60 + (n / 1000 % 60)) * 1000 +
      n % 1000 := by omega
  conv_lhs => rw [hde]
  rw [msToTimestamp_mkTs (by omega) (by omega) (by omega) (by omega),
    timestampToMs_mkTs (by omega) (by omega) (by omega) (by omega)]
  omega

theorem roundtrip_ms_int {t : Int} (h0 : 0 ≤ t) (h1 : t < 360000000) :
    timestampToMs (msToTimestamp t) = t := by
  obtain ⟨n, rfl⟩ := Int.eq_ofNat_of_zero_le h0
  exact roundtrip_ms_nat (by exact_mod_cast h1)

theorem canonTs_iff {ts : List Char} : canonTs ts = true ↔
    timestampToMs ts < 360000000 ∧ msToTimestamp (timestampToMs ts) = ts := by
  simp [canonTs]

theorem msToTimestamp_canon {t : Int} (h0 : 0 ≤ t) (h1 : t < 360000000) :
    canonTs (msToTimestamp t) = true := by
  rw [canonTs_iff, roundtrip_ms_int h0 h1]
  exact ⟨h1, rfl⟩

/-- C2 (amended): for every non-negative integer m below 360000000 ms (100
hours), timestampToMs(msToTimestamp(m)) == m; and for every negative input,
msToTimestamp returns the same string as for input 0. -/
theorem c2_roundtrip_and_clamp (m : Int) :
    (0 ≤ m → m < 360000000 → timestampToMs (msToTimestamp m) = m) ∧
      (m < 0 → msToTimestamp m = msToTimestamp 0) := by
  constructor
  · intro h0 h1
    exact roundtrip_ms_int h0 h1
  · intro hneg
    rw [msToTimestamp_eq, msToTimestamp_eq, if_pos hneg,
      if_neg (by omega : ¬ ((0 : Int) < 0))]
    rfl

/-- C2 counterexample: at m = 360000000 (100 hours) the round trip returns 0,
so the claim's unrestricted quantification over all non-negative integers
fails (msToTimestamp renders a three-digit hour field and the unanchored
regex of timestampToMs matches a shifted 12-character window). -/
theorem c2_counterexample :
    timestampToMs (msToTimestamp (360000000 : Int)) = 0 ∧ (360000000 : Int) ≠ 0 := by
  constructor
  · decide
  · decide

/-- Witness for C2 (amended) at concrete inputs. -/
theorem c2_roundtrip_and_clamp_witness :
    timestampToMs (msToTimestamp (5025678 : Int)) = 5025678 ∧
      msToTimestamp (-7 : Int) = msToTimestamp 0 :=
  ⟨(c2_roundtrip_and_clamp 5025678).1 (by decide) (by decide),
    (c2_roundtrip_and_clamp (-7)).2 (by decide)⟩

theorem list_map_id_of {α : Type} {f : α → α} :
    ∀ {l : List α}, (∀ x ∈ l, f x = x) → l.map f = l := by
  intro l
  induction l with
  | nil => intro _; rfl
  | cons a tl ih =>
    intro h
    simp only [List.map_cons, h a (by simp), ih (fun x hx => h x (by simp [hx]))]

theorem handleOffsetChange_eq (st : AppTiming) (v : Int) :
    handleOffsetChange st v =
      if v - st.offset = 0 then st
      else
        { st with
          entries := st.entries.map (fun e =>
            { e with
              startTime := msToTimestamp (timestampToMs e.startTime + (v - st.offset)),
              endTime := msToTimestamp (timestampToMs e.endTime + (v - st.offset)) }),
          offset := v } := rfl

theorem handleOffsetChange_mk (es : List SrtEntryData) (o pd v : Int) :
    handleOffsetChange ⟨es, o, pd⟩ v =
      if v - o = 0 then ⟨es, o, pd⟩
      else
        ⟨es.map (fun e =>
            { e with
              startTime := msToTimestamp (timestampToMs e.startTime + (v - o)),
              endTime := msToTimestamp (timestampToMs e.endTime + (v - o)) }),
          v, pd⟩ := by
  rw [handleOffsetChange_eq]

theorem offset_handleOffsetChange (st : AppTiming) (v : Int) :
    (handleOffsetChange st v).offset = v := by
  rw [handleOffsetChange_eq]
  by_cases h : v - st.offset = 0
  · rw [if_pos h]
    omega
  · rw [if_neg h]

theorem entries_handleOffsetChange_entries (st : AppTiming) (v : Int) :
    (handleOffsetChange st v).endTimePadding = st.endTimePadding := by
  rw [handleOffsetChange_eq]
  by_cases h : v - st.offset = 0
  · rw [if_pos h]
  · rw [if_neg h]

/-- C3 (amended): applyGlobalOffset is unconditionally idempotent under
repeated identical calls (the guard `diff === 0` makes the second call an
early-return no-op, for every collection); returning the slider to the
previous value restores every entry exactly provided, in addition, every
entry's start and end timestamp is canonical (re-rendering its parsed
millisecond value reproduces the string) and every shifted start/end time
stays within [0, 360000000) (otherwise the negative clamp of msToTimestamp,
the 100-hour rendering, or the lossy re-parse of a non-canonical string
makes the shift irreversible). -/
theorem c3_offset_idempotent_and_reversal (st : AppTiming) (v : Int) :
    handleOffsetChange (handleOffsetChange st v) v = handleOffsetChange st v ∧
      ((∀ e ∈ st.entries, canonTs e.startTime = true ∧ canonTs e.endTime = true) →
        (∀ e ∈ st.entries,
          0 ≤ timestampToMs e.startTime + (v - st.offset) ∧
            timestampToMs e.startTime + (v - st.offset) < 360000000 ∧
            0 ≤ timestampToMs e.endTime + (v - st.offset) ∧
            timestampToMs e.endTime + (v - st.offset) < 360000000) →
        handleOffsetChange (handleOffsetChange st v) st.offset = st) := by
  constructor
  · rw [handleOffsetChange_eq (handleOffsetChange st v) v,
      if_pos (by rw [offset_handleOffsetChange]; omega)]
  · intro hcanon hrange
    by_cases hsame : v - st.offset = 0
    · rw [handleOffsetChange_eq st v, if_pos hsame]
      rw [handleOffsetChange_eq, if_pos (by omega)]
    · obtain ⟨es, o, pd⟩ := st
      simp only at hsame hcanon hrange
      show handleOffsetChange (handleOffsetChange ⟨es, o, pd⟩ v) o = (⟨es, o, pd⟩ : AppTiming)
      rw [handleOffsetChange_mk es o pd v, if_neg hsame, handleOffsetChange_mk,
        if_neg (by omega)]
      simp only [AppTiming.mk.injEq, List.map_map, and_true, true_and]
      apply list_map_id_of
      intro e he
      obtain ⟨hc1, hc2⟩ := hcanon e he
      obtain ⟨hr1, hr2, hr3, hr4⟩ := hrange e he
      simp only [Function.comp]
      rw [roundtrip_ms_int hr1 hr2, roundtrip_ms_int hr3 hr4]
      have e1 : timestampToMs e.startTime + (v - o) + (o - v) = timestampToMs e.startTime := by
        ring
      have e2 : timestampToMs e.endTime + (v - o) + (o - v) = timestampToMs e.endTime := by
        ring
      rw [e1, e2, (canonTs_iff.mp hc1).2, (canonTs_iff.mp hc2).2]

/-- C3 counterexample: with an entry at time zero, moving the slider from 0
to -500 and back to 0 does not restore the collection (the negative start
was clamped to zero, so the return trip shifts it to 500 ms). -/
theorem c3_counterexample :
    handleOffsetChange (handleOffsetChange
      ⟨[⟨1, "00:00:00,000".data, "00:00:01,000".data, "a".data⟩], 0, 0⟩ (-500)) 0 ≠
      ⟨[⟨1, "00:00:00,000".data, "00:00:01,000".data, "a".data⟩], 0, 0⟩ := by
  decide

/-- Witness for C3 (amended) at a concrete collection and offset. -/
theorem c3_offset_idempotent_and_reversal_witness :
    handleOffsetChange (handleOffsetChange
        ⟨[⟨1, "00:00:01,000".data, "00:00:02,000".data, "a".data⟩], 0, 0⟩ 500) 500 =
      handleOffsetChange
        ⟨[⟨1, "00:00:01,000".data, "00:00:02,000".data, "a".data⟩], 0, 0⟩ 500 ∧
    handleOffsetChange (handleOffsetChange
        ⟨[⟨1, "00:00:01,000".data, "00:00:02,000".data, "a".data⟩], 0, 0⟩ 500) 0 =
      ⟨[⟨1, "00:00:01,000".data, "00:00:02,000".data, "a".data⟩], 0, 0⟩ :=
  ⟨(c3_offset_idempotent_and_reversal
      ⟨[⟨1, "00:00:01,000".data, "00:00:02,000".data, "a".data⟩], 0, 0⟩ 500).1,
    (c3_offset_idempotent_and_reversal
      ⟨[⟨1, "00:00:01,000".data, "00:00:02,000".data, "a".data⟩], 0, 0⟩ 500).2
      (by decide) (by decide)⟩

theorem padOne_eq (diff : Int) (next : Option SrtEntryData) (e : SrtEntryData) :
    padOne diff next e =
      { e with
        endTime := msToTimestamp
          (if diff > 0 then
            (match next with
             | some nx =>
               min (max (timestampToMs e.startTime) (timestampToMs e.endTime + diff))
                 (timestampToMs nx.startTime)
             | none => max (timestampToMs e.startTime) (timestampToMs e.endTime + diff))
          else max (timestampToMs e.startTime) (timestampToMs e.endTime + diff)) } := rfl

theorem padOne_none (diff : Int) (e : SrtEntryData) :
    padOne diff none e =
      { e with
        endTime := msToTimestamp
          (max (timestampToMs e.startTime) (timestampToMs e.endTime + diff)) } := by
  rw [padOne_eq]
  by_cases hd : diff > 0 <;> simp [hd]

theorem padOne_some (diff : Int) (e nx : SrtEntryData) :
    padOne diff (some nx) e =
      { e with
        endTime := msToTimestamp
          (if diff > 0 then
            min (max (timestampToMs e.startTime) (timestampToMs e.endTime + diff))
              (timestampToMs nx.startTime)
          else max (timestampToMs e.startTime) (timestampToMs e.endTime + diff)) } := by
  rw [padOne_eq]

theorem handleEndTimePaddingChange_eq (st : AppTiming) (newPadding : Int) :
    handleEndTimePaddingChange st newPadding =
      if newPadding - st.endTimePadding = 0 then st
      else
        { st with
          entries := padMap (newPadding - st.endTimePadding) st.entries,
          endTimePadding := newPadding } := rfl

theorem padOne_ok {diff : Int} {e : SrtEntryData} {next : Option SrtEntryData}
    (hs : timestampToMs e.startTime < 360000000)
    (he : timestampToMs e.endTime + diff < 360000000)
    (hnx : ∀ nx, next = some nx →
      timestampToMs e.startTime ≤ timestampToMs nx.startTime) :
    timestampToMs (padOne diff next e).startTime ≤
      timestampToMs (padOne diff next e).endTime := by
  have hs0 := timestampToMs_nonneg e.startTime
  cases next with
  | none =>
    rw [padOne_none]
    show timestampToMs e.startTime ≤ timestampToMs (msToTimestamp
      (max (timestampToMs e.startTime) (timestampToMs e.endTime + diff)))
    rw [roundtrip_ms_int (by omega) (by omega)]
    omega
  | some nx =>
    have hnx' := hnx nx rfl
    have hnx0 := timestampToMs_nonneg nx.startTime
    rw [padOne_some]
    show timestampToMs e.startTime ≤ timestampToMs (msToTimestamp
      (if diff > 0 then
        min (max (timestampToMs e.startTime) (timestampToMs e.endTime + diff))
          (timestampToMs nx.startTime)
      else max (timestampToMs e.startTime) (timestampToMs e.endTime + diff)))
    by_cases hd : diff > 0
    · rw [if_pos hd, roundtrip_ms_int (by omega) (by omega)]
      omega
    · rw [if_neg hd, roundtrip_ms_int (by omega) (by omega)]
      omega

theorem padMap_ok (diff : Int) :
    ∀ (l : List SrtEntryData), startsMono l = true →
      (∀ e ∈ l, timestampToMs e.startTime < 360000000 ∧
        timestampToMs e.endTime + diff < 360000000) →
      ∀ e ∈ padMap diff l,
        timestampToMs e.startTime ≤ timestampToMs e.endTime := by
  intro l
  induction l with
  | nil =>
    intro _ _ e he
    simp [padMap] at he
  | cons a tl ih =>
    cases tl with
    | nil =>
      intro _ hr e he
      simp only [padMap, List.mem_singleton] at he
      subst he
      exact padOne_ok (hr a (by simp)).1 (hr a (by simp)).2 (by intro nx h; cases h)
    | cons a2 rest =>
      intro hmono hr e he
      simp only [startsMono, Bool.and_eq_true, decide_eq_true_eq] at hmono
      simp only [padMap, List.mem_cons] at he
      rcases he with rfl | he
      · exact padOne_ok (hr a (by simp)).1 (hr a (by simp)).2
          (by
            intro nx hx
            injection hx with hx
            subst hx
            exact hmono.1)
      · exact ih hmono.2 (fun x hx => hr x (by simp [hx])) e he

/-- C9 (amended): provided start times are non-decreasing in array order and
all start times and shifted end times stay below 100 hours, applyEndPadding
maps a collection whose every entry satisfies endOffsetMs >= startOffsetMs to
another such collection (hence any finite sequence of such calls preserves
the invariant).  For time-unsorted collections the positive-delta clamp to
the next entry's earlier start can produce endOffsetMs < startOffsetMs. -/
theorem c9_padding_invariant (st : AppTiming) (newPadding : Int)
    (hmono : startsMono st.entries = true)
    (hrange : ∀ e ∈ st.entries, timestampToMs e.startTime < 360000000 ∧
      timestampToMs e.endTime + (newPadding - st.endTimePadding) < 360000000)
    (hinv : ∀ e ∈ st.entries,
      timestampToMs e.startTime ≤ timestampToMs e.endTime) :
    ∀ e ∈ (handleEndTimePaddingChange st newPadding).entries,
      timestampToMs e.startTime ≤ timestampToMs e.endTime := by
  rw [handleEndTimePaddingChange_eq]
  by_cases hd : newPadding - st.endTimePadding = 0
  · rw [if_pos hd]
    exact hinv
  · rw [if_neg hd]
    exact padMap_ok (newPadding - st.endTimePadding) st.entries hmono hrange

/-- C9 counterexample: on a collection whose second entry starts before the
first, a single applyEndPadding(+500) from padding 0 clamps the first entry's
end to the next entry's start (0 ms), which lies before its own start
(1000 ms): the invariant endOffsetMs >= startOffsetMs fails. -/
theorem c9_counterexample :
    ((handleEndTimePaddingChange
        ⟨[⟨1, "00:00:01,000".data, "00:00:01,000".data, "a".data⟩,
          ⟨2, "00:00:00,000".data, "00:00:05,000".data, "b".data⟩], 0, 0⟩ 500).entries.map
      (fun e => decide (timestampToMs e.startTime ≤ timestampToMs e.endTime))) =
      [false, true] := by
  decide

/-- Witness for C9 (amended) on a concrete sorted collection. -/
theorem c9_padding_invariant_witness :
    ((handleEndTimePaddingChange
      ⟨[⟨1, "00:00:01,000".data, "00:00:02,000".data, "a".data⟩,
        ⟨2, "00:00:03,000".data, "00:00:04,000".data, "b".data⟩], 0, 0⟩ 700).entries.all
      (fun e => decide (timestampToMs e.startTime ≤ timestampToMs e.endTime))) = true :=
  List.all_eq_true.mpr (fun e he => decide_eq_true
    (c9_padding_invariant
      ⟨[⟨1, "00:00:01,000".data, "00:00:02,000".data, "a".data⟩,
        ⟨2, "00:00:03,000".data, "00:00:04,000".data, "b".data⟩], 0, 0⟩ 700
      (by decide) (by decide) (by decide) e he))

theorem jsFindIndex_none {p : SrtEntryData → Bool} :
    ∀ {l : List SrtEntryData}, (∀ e ∈ l, p e = false) → jsFindIndex p l = none := by
  intro l
  induction l with
  | nil => intro _; rfl
  | cons e tl ih =>
    intro h
    simp only [jsFindIndex, h e (by simp), Bool.false_eq_true, if_false]
    rw [ih (fun x hx => h x (by simp [hx]))]
    rfl

theorem jsFindIndex_wellIndexed :
    ∀ (l : List SrtEntryData) (n v : Int) (k : Nat),
      wellIndexedFrom n l = true → k < l.length → v = n + k →
      jsFindIndex (fun e => e.index = v) l = some k := by
  intro l
  induction l with
  | nil =>
    intro n v k _ hk _
    simp at hk
  | cons e tl ih =>
    intro n v k hwf hk hv
    simp only [wellIndexedFrom, Bool.and_eq_true, decide_eq_true_eq] at hwf
    cases k with
    | zero =>
      have he : e.index = v := by
        rw [hwf.1, hv]
        simp
      simp [jsFindIndex, he]
    | succ j =>
      have hne : decide (e.index = v) = false := by
        simp only [decide_eq_false_iff_not]
        rw [hwf.1, hv]
        intro hc
        omega
      simp only [jsFindIndex, hne, Bool.false_eq_true, if_false]
      rw [ih (n + 1) v j hwf.2 (by simp at hk; omega) (by rw [hv]; push_cast; ring)]
      rfl

theorem reindexFrom_length : ∀ (l : List SrtEntryData) (n : Int),
    (reindexFrom n l).length = l.length := by
  intro l
  induction l with
  | nil => intro n; rfl
  | cons e tl ih =>
    intro n
    simp [reindexFrom, ih]

theorem reindexFrom_get : ∀ (l : List SrtEntryData) (n : Int) (i : Nat)
    (h : i < l.length) (h' : i < (reindexFrom n l).length),
    (reindexFrom n l).get ⟨i, h'⟩ = { l.get ⟨i, h⟩ with index := n + i } := by
  intro l
  induction l with
  | nil =>
    intro n i h
    simp at h
  | cons e tl ih =>
    intro n i h h'
    cases i with
    | zero => simp [reindexFrom]
    | succ j =>
      have hj : j < tl.length := by simp at h; omega
      have hj' : j < (reindexFrom (n + 1) tl).length := by rw [reindexFrom_length]; omega
      show (reindexFrom (n + 1) tl).get ⟨j, hj'⟩ = _
      rw [ih (n + 1) j hj hj']
      have : n + 1 + (j : Int) = n + ((j + 1 : Nat) : Int) := by push_cast; ring
      rw [this]
      rfl

theorem get_append_mid {α : Type} :
    ∀ (l1 : List α) (x : α) (l2 : List α) (h : l1.length < (l1 ++ x :: l2).length),
      (l1 ++ x :: l2).get ⟨l1.length, h⟩ = x := by
  intro l1
  induction l1 with
  | nil => intro x l2 h; rfl
  | cons a t ih =>
    intro x l2 h
    show (t ++ x :: l2).get ⟨t.length, _⟩ = x
    exact ih x l2 _

theorem get_append_mid_at {α : Type} (l1 : List α) (x : α) (l2 : List α) (i : Nat)
    (hi : i = l1.length) (h : i < (l1 ++ x :: l2).length) :
    (l1 ++ x :: l2).get ⟨i, h⟩ = x := by
  subst hi
  exact get_append_mid l1 x l2 h

theorem reindexFrom_getq : ∀ (l : List SrtEntryData) (n : Int) (i : Nat),
    (reindexFrom n l).get? i = (l.get? i).map (fun e => { e with index := n + i }) := by
  intro l
  induction l with
  | nil => intro n i; rfl
  | cons e tl ih =>
    intro n i
    cases i with
    | zero => simp [reindexFrom]
    | succ j =>
      show (reindexFrom (n + 1) tl).get? j = _
      rw [ih (n + 1) j]
      have : n + 1 + (j : Int) = n + ((j + 1 : Nat) : Int) := by push_cast; ring
      rw [this]
      rfl

theorem getq_append_mid {α : Type} :
    ∀ (l1 : List α) (x : α) (l2 : List α) (i : Nat), i = l1.length →
      (l1 ++ x :: l2).get? i = some x := by
  intro l1
  induction l1 with
  | nil =>
    intro x l2 i hi
    subst hi
    rfl
  | cons a t ih =>
    intro x l2 i hi
    subst hi
    show (t ++ x :: l2).get? t.length = some x
    exact ih x l2 t.length rfl

theorem handleMerge_eq_none {entries : List SrtEntryData} {s : Int}
    (hf : jsFindIndex (fun e => e.index = s) entries = none) :
    handleMerge entries s = entries := by
  unfold handleMerge
  rw [hf]

theorem handleMerge_found {entries : List SrtEntryData} {s : Int} {k : Nat}
    {e1 e2 : SrtEntryData}
    (hf : jsFindIndex (fun e => e.index = s) entries = some k)
    (hlt : k + 1 < entries.length)
    (h1 : entries.get? k = some e1) (h2 : entries.get? (k + 1) = some e2) :
    handleMerge entries s = reindex (entries.take k ++
      { e1 with endTime := e2.endTime, text := jsTrim (e1.text ++ '\n' :: e2.text) } ::
      entries.drop (k + 2)) := by
  unfold handleMerge
  rw [hf]
  simp only
  rw [if_neg (by omega : ¬ (k + 1 ≥ entries.length))]
  rw [h1, h2]

theorem handleMerge_last {entries : List SrtEntryData}
    (hwi : wellIndexed entries = true) :
    handleMerge entries (entries.length : Int) = entries := by
  by_cases hnil : entries = []
  · subst hnil
    rfl
  · have hlen : 1 ≤ entries.length := List.length_pos.mpr hnil
    have hf := jsFindIndex_wellIndexed entries 1 (entries.length : Int)
      (entries.length - 1) hwi (by omega) (by omega)
    unfold handleMerge
    rw [hf]
    simp only
    rw [if_pos (by omega)]

/-- C5 (amended): for a well-indexed collection in which the entry with
sequence number k+1 exists and is not last, mergeWithNext produces a
collection one shorter whose merged entry keeps the first entry's start
time, takes the second entry's end time, and has text equal to the *joined*
text trimmed as a whole (`(text1 + "\n" + text2).trim()`, not each part
trimmed separately); merging at the last entry returns the collection
unchanged. -/
theorem c5_merge (entries : List SrtEntryData) (k : Nat) (e1 e2 : SrtEntryData)
    (hwi : wellIndexed entries = true) (hk : k + 1 < entries.length)
    (h1 : entries.get? k = some e1) (h2 : entries.get? (k + 1) = some e2) :
    (handleMerge entries ((k : Int) + 1)).length = entries.length - 1 ∧
      (handleMerge entries ((k : Int) + 1)).get? k =
        some { index := (k : Int) + 1, startTime := e1.startTime,
               endTime := e2.endTime, text := jsTrim (e1.text ++ '\n' :: e2.text) } ∧
      handleMerge entries (entries.length : Int) = entries := by
  have hf : jsFindIndex (fun e => e.index = ((k : Int) + 1)) entries = some k :=
    jsFindIndex_wellIndexed entries 1 _ k hwi (by omega) (by ring)
  have hM := handleMerge_found hf hk h1 h2
  have htakelen : (entries.take k).length = k := by
    rw [List.length_take]
    omega
  have hMlen : (handleMerge entries ((k : Int) + 1)).length = entries.length - 1 := by
    rw [hM]
    unfold reindex
    rw [reindexFrom_length]
    simp only [List.length_append, List.length_cons, List.length_drop, htakelen]
    omega
  refine ⟨hMlen, ?_, handleMerge_last hwi⟩
  rw [hM]
  show (reindexFrom 1 _).get? k = _
  rw [reindexFrom_getq, getq_append_mid _ _ _ k htakelen.symm]
  have : (1 : Int) + (k : Int) = (k : Int) + 1 := by ring
  simp [this]

/-- C5 counterexample: merging entries with texts "a " and "b" yields text
"a \nb" (the join is trimmed as a whole), not "a\nb" as the per-part
trimming in the claim would give. -/
theorem c5_counterexample :
    (handleMerge [⟨1, "00:00:00,000".data, "00:00:01,000".data, 'a' :: ' ' :: []⟩,
        ⟨2, "00:00:01,000".data, "00:00:02,000".data, "b".data⟩] 1).map
      (fun e => e.text) = ['a' :: ' ' :: '\n' :: 'b' :: []] ∧
      'a' :: ' ' :: '\n' :: 'b' :: [] ≠
        jsTrim ('a' :: ' ' :: []) ++ '\n' :: jsTrim "b".data := by
  decide

/-- Witness for C5 (amended) on a concrete two-entry collection. -/
theorem c5_merge_witness :
    (handleMerge [⟨1, "00:00:00,000".data, "00:00:01,000".data, "a".data⟩,
        ⟨2, "00:00:01,000".data, "00:00:02,000".data, "b".data⟩] ((0 : Int) + 1)).length =
      [⟨1, "00:00:00,000".data, "00:00:01,000".data, "a".data⟩,
        (⟨2, "00:00:01,000".data, "00:00:02,000".data, "b".data⟩ : SrtEntryData)].length - 1 ∧
    (handleMerge [⟨1, "00:00:00,000".data, "00:00:01,000".data, "a".data⟩,
        ⟨2, "00:00:01,000".data, "00:00:02,000".data, "b".data⟩] ((0 : Int) + 1)).get? 0 =
      some { index := (0 : Int) + 1, startTime := "00:00:00,000".data,
             endTime := "00:00:02,000".data,
             text := jsTrim ("a".data ++ '\n' :: "b".data) } ∧
    handleMerge [⟨1, "00:00:00,000".data, "00:00:01,000".data, "a".data⟩,
        ⟨2, "00:00:01,000".data, "00:00:02,000".data, "b".data⟩]
      (([⟨1, "00:00:00,000".data, "00:00:01,000".data, "a".data⟩,
        (⟨2, "00:00:01,000".data, "00:00:02,000".data, "b".data⟩ : SrtEntryData)].length : Nat) : Int) =
      [⟨1, "00:00:00,000".data, "00:00:01,000".data, "a".data⟩,
        ⟨2, "00:00:01,000".data, "00:00:02,000".data, "b".data⟩] :=
  c5_merge
    [⟨1, "00:00:00,000".data, "00:00:01,000".data, "a".data⟩,
      ⟨2, "00:00:01,000".data, "00:00:02,000".data, "b".data⟩] 0
    ⟨1, "00:00:00,000".data, "00:00:01,000".data, "a".data⟩
    ⟨2, "00:00:01,000".data, "00:00:02,000".data, "b".data⟩
    (by decide) (by decide) (by decide) (by decide)

theorem reindexFrom_wellIndexed :
    ∀ (l : List SrtEntryData) (n : Int), wellIndexedFrom n l = true →
      reindexFrom n l = l := by
  intro l
  induction l with
  | nil => intro n _; rfl
  | cons e tl ih =>
    intro n hwf
    simp only [wellIndexedFrom, Bool.and_eq_true, decide_eq_true_eq] at hwf
    obtain ⟨i, st, en, tx⟩ := e
    simp only at hwf
    simp only [reindexFrom, hwf.1, ih (n + 1) hwf.2]

/-- C7 (amended): with a sequence number absent from the collection, insert,
move, merge, split and set-to-playback-time return the collection unchanged
(value-equal) for every collection, and never throw (they are total
functions); delete filters nothing but still renumbers, so it is
value-unchanged exactly on well-indexed collections (index = position + 1),
while on a collection with non-dense indices it renumbers them. -/
theorem c7_missing_seq_noop (entries : List SrtEntryData) (idx : Int) (up : Bool)
    (off : Int) (t : Int) (isStart : Bool)
    (h : ∀ e ∈ entries, e.index ≠ idx) :
    handleInsert entries idx = entries ∧
      handleMove entries idx up = entries ∧
      handleMerge entries idx = entries ∧
      handleSplit entries idx off = entries ∧
      handleSetTimeToCurrent t entries idx isStart = entries ∧
      (wellIndexed entries = true → handleDelete entries idx = entries) := by
  have hp : ∀ e ∈ entries, (fun e => decide (e.index = idx)) e = false := by
    intro e he
    simp [h e he]
  have hf := jsFindIndex_none hp
  refine ⟨?_, ?_, ?_, ?_, ?_, ?_⟩
  · unfold handleInsert
    rw [hf]
  · unfold handleMove
    rw [hf]
  · unfold handleMerge
    rw [hf]
  · unfold handleSplit
    rw [hf]
  · unfold handleSetTimeToCurrent
    rw [hf]
  · intro hwi
    unfold handleDelete
    have hfil : entries.filter (fun e => e.index ≠ idx) = entries := by
      rw [List.filter_eq_self]
      intro e he
      simp [h e he]
    rw [hfil]
    exact reindexFrom_wellIndexed entries 1 hwi

/-- C7 counterexample: on a collection with non-dense sequence numbers (as
produced verbatim by parseSrt), delete with a missing sequence number is not
value-equal to the input: it renumbers index 5 to 1. -/
theorem c7_counterexample :
    handleDelete [⟨5, "00:00:00,000".data, "00:00:01,000".data, "x".data⟩] 7 ≠
        [⟨5, "00:00:00,000".data, "00:00:01,000".data, "x".data⟩] ∧
      (∀ e ∈ [(⟨5, "00:00:00,000".data, "00:00:01,000".data, "x".data⟩ : SrtEntryData)],
        e.index ≠ 7) := by
  constructor
  · decide
  · decide

/-- Witness for C7 (amended) on a concrete collection. -/
theorem c7_missing_seq_noop_witness :
    handleInsert [⟨1, "00:00:00,000".data, "00:00:01,000".data, "x".data⟩] 99 =
        [⟨1, "00:00:00,000".data, "00:00:01,000".data, "x".data⟩] ∧
      handleMove [⟨1, "00:00:00,000".data, "00:00:01,000".data, "x".data⟩] 99 true =
        [⟨1, "00:00:00,000".data, "00:00:01,000".data, "x".data⟩] ∧
      handleMerge [⟨1, "00:00:00,000".data, "00:00:01,000".data, "x".data⟩] 99 =
        [⟨1, "00:00:00,000".data, "00:00:01,000".data, "x".data⟩] ∧
      handleSplit [⟨1, "00:00:00,000".data, "00:00:01,000".data, "x".data⟩] 99 1 =
        [⟨1, "00:00:00,000".data, "00:00:01,000".data, "x".data⟩] ∧
      handleSetTimeToCurrent 0 [⟨1, "00:00:00,000".data, "00:00:01,000".data, "x".data⟩]
          99 true =
        [⟨1, "00:00:00,000".data, "00:00:01,000".data, "x".data⟩] ∧
      (wellIndexed [⟨1, "00:00:00,000".data, "00:00:01,000".data, "x".data⟩] = true →
        handleDelete [⟨1, "00:00:00,000".data, "00:00:01,000".data, "x".data⟩] 99 =
          [⟨1, "00:00:00,000".data, "00:00:01,000".data, "x".data⟩]) :=
  c7_missing_seq_noop [⟨1, "00:00:00,000".data, "00:00:01,000".data, "x".data⟩]
    99 true 1 0 true (by decide)

theorem filterMap_ext {α β : Type} {f g : α → Option β} (h : ∀ a, f a = g a)
    (l : List α) : l.filterMap f = l.filterMap g := by
  have hfg : f = g := funext h
  rw [hfg]

theorem parseBlock_index (b : List Char) :
    (parseBlock b).map SrtEntryData.index = blockIndex b := by
  unfold parseBlock blockIndex
  cases hsp : splitNl (jsTrim b) with
  | nil => rfl
  | cons l0 rest0 =>
    cases rest0 with
    | nil => rfl
    | cons l1 rest =>
      cases hpi : parseIntJS l0 with
      | none => simp [hpi]
      | some idx =>
        cases ham : arrowMatch l1 with
        | none => simp [hpi, ham]
        | some g => simp [hpi, ham]

/-- C10: parseSrt stores each accepted block's leading sequence number
verbatim in the entry's index field (the indices of the parse are exactly
the parseInt results of the accepted blocks' first lines, never renumbered),
and a concrete SRT file whose single block is numbered 5 parses to an entry
with index 5, violating the dense invariant (position 0 would require
index 1). -/
theorem c10_parse_verbatim_index :
    (∀ content : List Char, (parseSrt content).map SrtEntryData.index =
      (if content = [] then [] else splitBlocks (jsTrim content)).filterMap blockIndex) ∧
      parseSrt "5\r\n00:00:00,000 --> 00:00:01,000\r\nhi".data =
        [⟨5, "00:00:00,000".data, "00:00:01,000".data, "hi".data⟩] ∧
      (5 : Int) ≠ 0 + 1 := by
  refine ⟨?_, by decide, by decide⟩
  intro content
  unfold parseSrt
  by_cases hc : content = []
  · simp [hc]
  · rw [if_neg hc, if_neg hc, List.map_filterMap]
    exact filterMap_ext parseBlock_index _

theorem zipWith_getq {α β γ : Type} (f : α → β → γ) :
    ∀ (l1 : List α) (l2 : List β) (i : Nat),
      (List.zipWith f l1 l2).get? i =
        match l1.get? i, l2.get? i with
        | some a, some b => some (f a b)
        | _, _ => none := by
  intro l1
  induction l1 with
  | nil =>
    intro l2 i
    cases l2 <;> cases i <;> rfl
  | cons a t ih =>
    intro l2 i
    cases l2 with
    | nil =>
      cases i with
      | zero => rfl
      | succ j =>
        cases h1 : (a :: t).get? (j + 1) <;>
          simp [List.zipWith_nil_right, h1]
    | cons b t2 =>
      cases i with
      | zero => rfl
      | succ j => exact ih t2 j

theorem refineSrtTimingsCore_eq (current aiItems : List SrtEntryData)
    (hne : aiItems ≠ []) :
    refineSrtTimingsCore current aiItems =
      (if (aiItems.map (fun e =>
            { e with startTime := normalizeTimestamp e.startTime,
                     endTime := normalizeTimestamp e.endTime })).length ≠ current.length
       then Except.error refineCountMsg
       else Except.ok (List.zipWith
         (fun originalEntry refined =>
           { originalEntry with startTime := refined.startTime,
                                endTime := refined.endTime })
         current (aiItems.map (fun e =>
           { e with startTime := normalizeTimestamp e.startTime,
                    endTime := normalizeTimestamp e.endTime })))) := by
  unfold refineSrtTimingsCore processAiEntries
  rw [if_neg hne]

/-- C4 (amended): when the collaborator returns a non-empty list whose length
differs from the input's, refineTimings raises the entry-count-mismatch error
and the existing collection remains current; when the lengths match, the
result pairs each original entry (keeping its index and text) positionally
with the i-th returned entry's normalized start/end timings, never using the
collaborator's echoed text or index.  (A returned empty list raises the
distinct empty-result error instead, also leaving the collection current.) -/
theorem c4_refine_contract (current aiItems : List SrtEntryData)
    (hne : aiItems ≠ []) :
    (aiItems.length ≠ current.length →
      refineSrtTimingsCore current aiItems = Except.error refineCountMsg ∧
        commitRefine current (refineSrtTimingsCore current aiItems) = current) ∧
      (aiItems.length = current.length →
        ∃ es, refineSrtTimingsCore current aiItems = Except.ok es ∧
          ∀ (i : Nat) (o a : SrtEntryData), current.get? i = some o →
            aiItems.get? i = some a →
            es.get? i = some { o with startTime := normalizeTimestamp a.startTime,
                                      endTime := normalizeTimestamp a.endTime }) := by
  constructor
  · intro hlen
    have he : refineSrtTimingsCore current aiItems = Except.error refineCountMsg := by
      rw [refineSrtTimingsCore_eq current aiItems hne,
        if_pos (by rw [List.length_map]; exact hlen)]
    exact ⟨he, by rw [he]; rfl⟩
  · intro hlen
    refine ⟨_, by
      rw [refineSrtTimingsCore_eq current aiItems hne,
        if_neg (by rw [List.length_map]; omega)], ?_⟩
    intro i o a ho ha
    rw [zipWith_getq, ho, List.get?_map, ha]
    rfl

/-- C4 counterexample: a collaborator returning the empty list (length 0, a
differing count for a 3-entry input) raises the empty-result error, not the
entry-count-mismatch error the claim names for every differing length; the
collection still remains current. -/
theorem c4_counterexample :
    refineSrtTimingsCore
        [⟨1, "00:00:00,000".data, "00:00:01,000".data, "a".data⟩,
         ⟨2, "00:00:01,000".data, "00:00:02,000".data, "b".data⟩,
         ⟨3, "00:00:02,000".data, "00:00:03,000".data, "c".data⟩] [] =
      Except.error refineEmptyMsg ∧
      refineEmptyMsg ≠ refineCountMsg ∧
      ([] : List SrtEntryData).length ≠ 3 ∧
      commitRefine
        [⟨1, "00:00:00,000".data, "00:00:01,000".data, "a".data⟩,
         ⟨2, "00:00:01,000".data, "00:00:02,000".data, "b".data⟩,
         ⟨3, "00:00:02,000".data, "00:00:03,000".data, "c".data⟩]
        (refineSrtTimingsCore
          [⟨1, "00:00:00,000".data, "00:00:01,000".data, "a".data⟩,
           ⟨2, "00:00:01,000".data, "00:00:02,000".data, "b".data⟩,
           ⟨3, "00:00:02,000".data, "00:00:03,000".data, "c".data⟩] []) =
        [⟨1, "00:00:00,000".data, "00:00:01,000".data, "a".data⟩,
         ⟨2, "00:00:01,000".data, "00:00:02,000".data, "b".data⟩,
         ⟨3, "00:00:02,000".data, "00:00:03,000".data, "c".data⟩] := by
  refine ⟨rfl, by decide, by decide, rfl⟩

/-- Witness for C4 (amended): three entries in, two refined entries back is
the count-mismatch failure and the collection stays current. -/
theorem c4_refine_contract_witness :
    ((2 : Nat) ≠ 3 →
      refineSrtTimingsCore
          [⟨1, "00:00:00,000".data, "00:00:01,000".data, "a".data⟩,
           ⟨2, "00:00:01,000".data, "00:00:02,000".data, "b".data⟩,
           ⟨3, "00:00:02,000".data, "00:00:03,000".data, "c".data⟩]
          [⟨1, "00:00:00,100".data, "00:00:01,100".data, "a".data⟩,
           ⟨2, "00:00:01,100".data, "00:00:02,100".data, "b".data⟩] =
        Except.error refineCountMsg ∧
        commitRefine
          [⟨1, "00:00:00,000".data, "00:00:01,000".data, "a".data⟩,
           ⟨2, "00:00:01,000".data, "00:00:02,000".data, "b".data⟩,
           ⟨3, "00:00:02,000".data, "00:00:03,000".data, "c".data⟩]
          (refineSrtTimingsCore
            [⟨1, "00:00:00,000".data, "00:00:01,000".data, "a".data⟩,
             ⟨2, "00:00:01,000".data, "00:00:02,000".data, "b".data⟩,
             ⟨3, "00:00:02,000".data, "00:00:03,000".data, "c".data⟩]
            [⟨1, "00:00:00,100".data, "00:00:01,100".data, "a".data⟩,
             ⟨2, "00:00:01,100".data, "00:00:02,100".data, "b".data⟩]) =
          [⟨1, "00:00:00,000".data, "00:00:01,000".data, "a".data⟩,
           ⟨2, "00:00:01,000".data, "00:00:02,000".data, "b".data⟩,
           ⟨3, "00:00:02,000".data, "00:00:03,000".data, "c".data⟩]) ∧
      ((2 : Nat) = 3 →
        ∃ es, refineSrtTimingsCore
            [⟨1, "00:00:00,000".data, "00:00:01,000".data, "a".data⟩,
             ⟨2, "00:00:01,000".data, "00:00:02,000".data, "b".data⟩,
             ⟨3, "00:00:02,000".data, "00:00:03,000".data, "c".data⟩]
            [⟨1, "00:00:00,100".data, "00:00:01,100".data, "a".data⟩,
             ⟨2, "00:00:01,100".data, "00:00:02,100".data, "b".data⟩] = Except.ok es ∧
          ∀ (i : Nat) (o a : SrtEntryData),
            [⟨1, "00:00:00,000".data, "00:00:01,000".data, "a".data⟩,
             ⟨2, "00:00:01,000".data, "00:00:02,000".data, "b".data⟩,
             (⟨3, "00:00:02,000".data, "00:00:03,000".data, "c".data⟩ : SrtEntryData)].get? i =
              some o →
            [⟨1, "00:00:00,100".data, "00:00:01,100".data, "a".data⟩,
             (⟨2, "00:00:01,100".data, "00:00:02,100".data, "b".data⟩ : SrtEntryData)].get? i =
              some a →
            es.get? i = some { o with startTime := normalizeTimestamp a.startTime,
                                      endTime := normalizeTimestamp a.endTime }) :=
  c4_refine_contract
    [⟨1, "00:00:00,000".data, "00:00:01,000".data, "a".data⟩,
     ⟨2, "00:00:01,000".data, "00:00:02,000".data, "b".data⟩,
     ⟨3, "00:00:02,000".data, "00:00:03,000".data, "c".data⟩]
    [⟨1, "00:00:00,100".data, "00:00:01,100".data, "a".data⟩,
     ⟨2, "00:00:01,100".data, "00:00:02,100".data, "b".data⟩]
    (by decide)

theorem lrcHere_bound {l : List Char} {t : Nat} {r : List Char}
    (h : lrcHere l = some (t, r)) : t ≤ 6039990 := by
  unfold lrcHere at h
  split at h
  · rename_i a b c d e f rest
    split at h
    · rename_i hds
      simp only [Bool.and_eq_true] at hds
      injection h with h
      injection h with h1 h2
      have ha := isDigit_toNat hds.1.1.1.1.1
      have hb := isDigit_toNat hds.1.1.1.1.2
      have hc := isDigit_toNat hds.1.1.1.2
      have hd := isDigit_toNat hds.1.1.2
      have he := isDigit_toNat hds.1.2
      have hf := isDigit_toNat hds.2
      unfold dVal at h1
      omega
    · cases h
  · cases h

theorem lrcScanLine_bound :
    ∀ {l : List Char} {t : Nat} {r : List Char},
      lrcScanLine l = some (t, r) → t ≤ 6039990 := by
  intro l
  induction l with
  | nil =>
    intro t r h
    cases h
  | cons c rest ih =>
    intro t r h
    unfold lrcScanLine at h
    cases hh : lrcHere (c :: rest) with
    | some v =>
      rw [hh] at h
      injection h with h
      subst h
      exact lrcHere_bound hh
    | none =>
      rw [hh] at h
      exact ih h

theorem lrcTimedLines_bound {content : List Char} :
    ∀ p ∈ lrcTimedLines content, p.1 ≤ 6039990 := by
  intro p hp
  unfold lrcTimedLines at hp
  rw [List.mem_filterMap] at hp
  obtain ⟨line, _, hline⟩ := hp
  cases hs : lrcScanLine line with
  | none => rw [hs] at hline; cases hline
  | some v =>
    rw [hs] at hline
    obtain ⟨t, txt⟩ := v
    simp only at hline
    split at hline
    · cases hline
    · injection hline with hline
      subst hline
      exact lrcScanLine_bound hs

theorem buildLrc_head (n : Nat) (t : Nat) (tx : List Char)
    (tl : List (Nat × List Char)) :
    ∃ en, buildLrc n ((t, tx) :: tl) =
      { index := (n : Int), startTime := msToTimestamp (t : Int),
        endTime := en, text := tx } :: buildLrc (n + 1) tl ∧
      (tl = [] → en = msToTimestamp ((t : Int) + 3000)) ∧
      (∀ t2 tx2 tl2, tl = (t2, tx2) :: tl2 → en = msToTimestamp ((t2 : Int))) := by
  cases tl with
  | nil =>
    refine ⟨msToTimestamp ((t : Int) + 3000), rfl, fun _ => rfl, ?_⟩
    intro t2 tx2 tl2 h
    cases h
  | cons p tl2 =>
    obtain ⟨t2, tx2⟩ := p
    refine ⟨msToTimestamp ((t2 : Int)), rfl, ?_, ?_⟩
    · intro h
      cases h
    · intro t3 tx3 tl3 h
      injection h with h1 h2
      injection h1 with h1a h1b
      subst h1a
      rfl

theorem buildLrc_spec :
    ∀ (tl : List (Nat × List Char)) (n : Nat), (∀ p ∈ tl, p.1 ≤ 6039990) →
      ((buildLrc n tl).map (fun e => timestampToMs e.startTime) =
        tl.map (fun p => ((p.1 : Nat) : Int))) ∧
      ((buildLrc n tl).map (fun e => e.text) = tl.map Prod.snd) ∧
      (∀ (i : Nat) (e1 e2 : SrtEntryData), (buildLrc n tl).get? i = some e1 →
        (buildLrc n tl).get? (i + 1) = some e2 → e1.endTime = e2.startTime) ∧
      (∀ e : SrtEntryData, (buildLrc n tl).getLast? = some e →
        timestampToMs e.endTime = timestampToMs e.startTime + 3000) := by
  intro tl
  induction tl with
  | nil =>
    intro n _
    refine ⟨rfl, rfl, ?_, ?_⟩
    · intro i e1 e2 h
      cases h
    · intro e h
      cases h
  | cons p tl2 ih =>
    intro n hb
    obtain ⟨t, tx⟩ := p
    have hbt : t ≤ 6039990 := hb (t, tx) (by simp)
    have hrt : timestampToMs (msToTimestamp ((t : Nat) : Int)) = ((t : Nat) : Int) :=
      roundtrip_ms_int (by omega) (by omega)
    cases tl2 with
    | nil =>
      refine ⟨?_, rfl, ?_, ?_⟩
      · show [timestampToMs (msToTimestamp ((t : Nat) : Int))] = _
        rw [hrt]
        rfl
      · intro i e1 e2 h1 h2
        cases i with
        | zero => cases h2
        | succ j => cases h1
      · intro e h
        have hstep : buildLrc n [(t, tx)] =
            [{ index := (n : Int), startTime := msToTimestamp ((t : Nat) : Int),
               endTime := msToTimestamp ((t : Int) + 3000), text := tx }] := rfl
        rw [hstep, List.getLast?_singleton] at h
        injection h with h
        subst h
        show timestampToMs (msToTimestamp ((t : Int) + 3000)) =
          timestampToMs (msToTimestamp ((t : Nat) : Int)) + 3000
        rw [roundtrip_ms_int (by omega) (by omega), hrt]
    | cons p2 tl3 =>
      obtain ⟨t2, tx2⟩ := p2
      have hbt2 : t2 ≤ 6039990 := hb (t2, tx2) (by simp)
      have hih := ih (n + 1) (fun q hq => hb q (by simp [hq]))
      refine ⟨?_, ?_, ?_, ?_⟩
      · show timestampToMs (msToTimestamp ((t : Nat) : Int)) ::
          (buildLrc (n + 1) ((t2, tx2) :: tl3)).map (fun e => timestampToMs e.startTime) = _
        rw [hrt, hih.1]
        rfl
      · show tx :: (buildLrc (n + 1) ((t2, tx2) :: tl3)).map (fun e => e.text) = _
        rw [hih.2.1]
        rfl
      · intro i e1 e2 h1 h2
        cases i with
        | zero =>
          have hstep : buildLrc n ((t, tx) :: (t2, tx2) :: tl3) =
              { index := (n : Int), startTime := msToTimestamp ((t : Nat) : Int),
                endTime := msToTimestamp ((t2 : Nat) : Int), text := tx } ::
                buildLrc (n + 1) ((t2, tx2) :: tl3) := rfl
          rw [hstep] at h1 h2
          injection h1 with h1
          subst h1
          obtain ⟨en2, hb2, _, _⟩ := buildLrc_head (n + 1) t2 tx2 tl3
          rw [hb2] at h2
          injection h2 with h2
          subst h2
          rfl
        | succ j =>
          exact hih.2.2.1 j e1 e2 h1 h2
      · intro e h
        have hne : buildLrc (n + 1) ((t2, tx2) :: tl3) ≠ [] := by
          obtain ⟨en2, hb2, _, _⟩ := buildLrc_head (n + 1) t2 tx2 tl3
          rw [hb2]
          simp
        have hlast : (buildLrc n ((t, tx) :: (t2, tx2) :: tl3)).getLast? =
            (buildLrc (n + 1) ((t2, tx2) :: tl3)).getLast? := by
          show (_ :: buildLrc (n + 1) ((t2, tx2) :: tl3)).getLast? = _
          cases hbb : buildLrc (n + 1) ((t2, tx2) :: tl3) with
          | nil => exact absurd hbb hne
          | cons x xs => simp [List.getLast?_cons_cons]
        rw [hlast] at h
        exact hih.2.2.2 e h

/-- C6: for every parsed LRC input, entries appear in file order (start
times and texts are exactly those of the matched timed lines, in order);
each entry that is not last has its end time equal to the next entry's start
time; and the last entry's end offset equals its own start offset + 3000
(the synthesized 3-second default). -/
theorem c6_lrc_end_synthesis (content : List Char) :
    ((parseLrc content).map (fun e => timestampToMs e.startTime) =
      (lrcTimedLines content).map (fun p => ((p.1 : Nat) : Int))) ∧
      ((parseLrc content).map (fun e => e.text) = (lrcTimedLines content).map Prod.snd) ∧
      (∀ (i : Nat) (e1 e2 : SrtEntryData), (parseLrc content).get? i = some e1 →
        (parseLrc content).get? (i + 1) = some e2 → e1.endTime = e2.startTime) ∧
      (∀ e : SrtEntryData, (parseLrc content).getLast? = some e →
        timestampToMs e.endTime = timestampToMs e.startTime + 3000) := by
  by_cases hc : content = []
  · subst hc
    refine ⟨rfl, rfl, ?_, ?_⟩
    · intro i e1 e2 h
      cases h
    · intro e h
      cases h
  · have hp : parseLrc content = buildLrc 1 (lrcTimedLines content) := by
      unfold parseLrc
      rw [if_neg hc]
    rw [hp]
    exact buildLrc_spec (lrcTimedLines content) 1 lrcTimedLines_bound

/-- Witness for C6 at the spec's example: starts 1000 and 4000 ms yield end
times 4000 and 7000 ms. -/
theorem c6_lrc_end_synthesis_witness :
    (⟨1, "00:00:01,000".data, "00:00:04,000".data, "hello".data⟩ : SrtEntryData).endTime =
        (⟨2, "00:00:04,000".data, "00:00:07,000".data, "world".data⟩ : SrtEntryData).startTime ∧
      timestampToMs (⟨2, "00:00:04,000".data, "00:00:07,000".data, "world".data⟩ :
          SrtEntryData).endTime =
        timestampToMs (⟨2, "00:00:04,000".data, "00:00:07,000".data, "world".data⟩ :
          SrtEntryData).startTime + 3000 :=
  ⟨(c6_lrc_end_synthesis "[00:01.00]hello\r\n[00:04.00]world".data).2.2.1 0
      ⟨1, "00:00:01,000".data, "00:00:04,000".data, "hello".data⟩
      ⟨2, "00:00:04,000".data, "00:00:07,000".data, "world".data⟩
      (by decide) (by decide),
    (c6_lrc_end_synthesis "[00:01.00]hello\r\n[00:04.00]world".data).2.2.2
      ⟨2, "00:00:04,000".data, "00:00:07,000".data, "world".data⟩ (by decide)⟩

theorem head?_mem {α : Type} {l : List α} {c : α} (h : l.head? = some c) : c ∈ l := by
  cases l with
  | nil => cases h
  | cons a t =>
    injection h with h
    subst h
    simp

theorem getLast?_mem {α : Type} : ∀ {l : List α} {c : α}, l.getLast? = some c → c ∈ l := by
  intro l
  induction l with
  | nil => intro c h; cases h
  | cons a t ih =>
    intro c h
    cases t with
    | nil =>
      rw [List.getLast?_singleton] at h
      injection h with h
      subst h
      simp
    | cons b t2 =>
      rw [List.getLast?_cons_cons] at h
      simp [ih h]

theorem jsTrim_digits {sg : List Char}
    (hd : ∀ c ∈ sg, isDigit c = true) : jsTrim sg = sg := by
  apply jsTrim_of_ends
  · intro c hc
    exact jsWs_eq_false_of_isDigit (hd c (head?_mem hc))
  · intro c hc
    exact jsWs_eq_false_of_isDigit (hd c (getLast?_mem hc))

theorem msSplit_append_sep (tp : List Char) {sep : Char} {msd : List Char}
    (hsep : sepChar sep = true) (h1 : msd ≠ []) (h3 : msd.length ≤ 3)
    (hd : ∀ c ∈ msd, isDigit c = true) :
    msSplit (tp ++ sep :: msd) = (tp, msd) := by
  match msd, h1, h3 with
  | [a], _, _ =>
    have hrev : (tp ++ sep :: [a]).reverse = a :: sep :: tp.reverse := by
      simp
    unfold msSplit
    rw [hrev]
    have hj : msTryJ (a :: sep :: tp.reverse) 1 = true := by
      simp [msTryJ, hd a (by simp), hsep]
    rw [if_pos hj]
    simp
  | [a, b], _, _ =>
    have hrev : (tp ++ sep :: [a, b]).reverse = b :: a :: sep :: tp.reverse := by
      simp
    unfold msSplit
    rw [hrev]
    have hj1 : msTryJ (b :: a :: sep :: tp.reverse) 1 = false := by
      simp [msTryJ, sepChar_eq_false_of_isDigit (hd a (by simp))]
    have hj2 : msTryJ (b :: a :: sep :: tp.reverse) 2 = true := by
      simp [msTryJ, hd a (by simp), hd b (by simp), hsep]
    rw [if_neg (by simp [hj1]), if_pos hj2]
    simp
  | [a, b, c], _, _ =>
    have hrev : (tp ++ sep :: [a, b, c]).reverse = c :: b :: a :: sep :: tp.reverse := by
      simp
    unfold msSplit
    rw [hrev]
    have hj1 : msTryJ (c :: b :: a :: sep :: tp.reverse) 1 = false := by
      simp [msTryJ, sepChar_eq_false_of_isDigit (hd b (by simp))]
    have hj2 : msTryJ (c :: b :: a :: sep :: tp.reverse) 2 = false := by
      simp [msTryJ, sepChar_eq_false_of_isDigit (hd a (by simp))]
    have hj3 : msTryJ (c :: b :: a :: sep :: tp.reverse) 3 = true := by
      simp [msTryJ, hd a (by simp), hd b (by simp), hd c (by simp), hsep]
    rw [if_neg (by simp [hj1]), if_neg (by simp [hj2]), if_pos hj3]
    simp

theorem splitColon_no_colon : ∀ {sg : List Char}, (∀ c ∈ sg, ¬ (c = ':')) →
    splitColon sg = [sg] := by
  intro sg
  induction sg with
  | nil => intro _; rfl
  | cons c r ih =>
    intro h
    simp only [splitColon, h c (by simp), if_false]
    rw [ih (fun d hd => h d (by simp [hd]))]
    rfl

theorem splitColon_append : ∀ {sg : List Char} (t : List Char),
    (∀ c ∈ sg, ¬ (c = ':')) → splitColon (sg ++ ':' :: t) = sg :: splitColon t := by
  intro sg
  induction sg with
  | nil =>
    intro t _
    simp [splitColon]
  | cons c r ih =>
    intro t h
    show splitColon (c :: (r ++ ':' :: t)) = _
    simp only [splitColon, h c (by simp), if_false]
    rw [ih t (fun d hd => h d (by simp [hd]))]
    rfl

theorem splitColon_interc : ∀ (segs : List (List Char)), segs ≠ [] →
    (∀ sg ∈ segs, ∀ c ∈ sg, isDigit c = true) →
    splitColon (interc [':'] segs) = segs := by
  intro segs
  induction segs with
  | nil => intro h _; exact absurd rfl h
  | cons sg rest ih =>
    intro _ hd
    cases rest with
    | nil =>
      show splitColon sg = [sg]
      exact splitColon_no_colon (fun c hc => (isDigit_ne (hd sg (by simp) c hc)).1)
    | cons sg2 rest2 =>
      have hint : interc [':'] (sg :: sg2 :: rest2) =
          sg ++ ':' :: interc [':'] (sg2 :: rest2) := by
        show sg ++ [':'] ++ interc [':'] (sg2 :: rest2) = _
        rw [List.append_assoc]
        rfl
      rw [hint, splitColon_append _ (fun c hc => (isDigit_ne (hd sg (by simp) c hc)).1)]
      rw [ih (by simp) (fun x hx c hc => hd x (by simp [hx]) c hc)]

theorem pOr0_digits {sg : List Char} (hne : sg ≠ [])
    (hd : ∀ c ∈ sg, isDigit c = true) : pOr0 sg = ((digitsVal sg : Nat) : Int) := by
  unfold pOr0
  rw [parseIntJS_digits hne hd]
  rfl

theorem rollover_cast (hn mn sn : Nat) (hb : 3600 * hn + 60 * mn + sn < 360000) :
    ∃ h2 m2 s2 : Nat, rollover ((hn : Nat) : Int) ((mn : Nat) : Int) ((sn : Nat) : Int) =
      (((h2 : Nat) : Int), ((m2 : Nat) : Int), ((s2 : Nat) : Int)) ∧
      h2 ≤ 99 ∧ m2 ≤ 59 ∧ s2 ≤ 59 := by
  unfold rollover
  by_cases hs : ((sn : Nat) : Int) ≥ 60
  · have hs' : 60 ≤ sn := by exact_mod_cast hs
    rw [if_pos hs]
    simp only
    have ediv : ((mn : Nat) : Int) + ((sn : Nat) : Int) / 60 = ((mn + sn / 60 : Nat) : Int) := by
      omega
    have emod : ((sn : Nat) : Int) % 60 = ((sn % 60 : Nat) : Int) := by
      omega
    rw [ediv, emod]
    by_cases hm : ((mn + sn / 60 : Nat) : Int) ≥ 60
    · have hm' : 60 ≤ mn + sn / 60 := by exact_mod_cast hm
      rw [if_pos hm]
      refine ⟨hn + (mn + sn / 60) / 60, (mn + sn / 60) % 60, sn % 60, ?_, ?_, ?_, ?_⟩
      · simp only [Prod.mk.injEq]
        refine ⟨by omega, by omega, trivial⟩
      · omega
      · omega
      · omega
    · have hm' : mn + sn / 60 < 60 := by
        by_contra hcc
        exact hm (by exact_mod_cast Nat.le_of_not_lt hcc)
      rw [if_neg hm]
      exact ⟨hn, mn + sn / 60, sn % 60, rfl, by omega, by omega, by omega⟩
  · have hs' : sn < 60 := by
      by_contra hcc
      exact hs (by exact_mod_cast Nat.le_of_not_lt hcc)
    rw [if_neg hs]
    simp only
    by_cases hm : ((mn : Nat) : Int) ≥ 60
    · have hm' : 60 ≤ mn := by exact_mod_cast hm
      rw [if_pos hm]
      refine ⟨hn + mn / 60, mn % 60, sn, ?_, ?_, ?_, ?_⟩
      · simp only [Prod.mk.injEq]
        refine ⟨by omega, by omega, trivial⟩
      · omega
      · omega
      · omega
    · have hm' : mn < 60 := by
        by_contra hcc
        exact hm (by exact_mod_cast Nat.le_of_not_lt hcc)
      rw [if_neg hm]
      exact ⟨hn, mn, sn, rfl, by omega, by omega, by omega⟩

theorem getLast?_append_right {α : Type} :
    ∀ (l1 l2 : List α), l2 ≠ [] → (l1 ++ l2).getLast? = l2.getLast? := by
  intro l1
  induction l1 with
  | nil => intro l2 _; rfl
  | cons a t ih =>
    intro l2 h2
    obtain ⟨b, bs, hb⟩ := List.exists_cons_of_ne_nil
      (show t ++ l2 ≠ [] by simp [h2])
    show (a :: (t ++ l2)).getLast? = _
    rw [hb, List.getLast?_cons_cons, ← hb, ih l2 h2]

theorem padMsE_digits {msd : List Char} (h1 : msd ≠ []) (h3 : msd.length ≤ 3)
    (hd : ∀ c ∈ msd, isDigit c = true) :
    ∃ a b c, padMsE msd = [a, b, c] ∧ isDigit a = true ∧ isDigit b = true ∧
      isDigit c = true := by
  match msd, h1, h3 with
  | [a], _, _ => exact ⟨a, '0', '0', rfl, hd a (by simp), rfl, rfl⟩
  | [a, b], _, _ => exact ⟨a, b, '0', rfl, hd a (by simp), hd b (by simp), rfl⟩
  | [a, b, c], _, _ =>
    exact ⟨a, b, c, rfl, hd a (by simp), hd b (by simp), hd c (by simp)⟩

/-- C8 (amended): for every input built from 1-3 colon-separated non-empty
digit segments and a 1-3 digit millisecond group behind a ','/'.'/':'
separator, the output of normalizeTimestamp matches
the anchored pattern of two-digit time fields and three millisecond digits,
provided the denoted total time is below 100 hours; when the hours value
exceeds 99 the hour field keeps all its digits and the output no longer
matches. -/
theorem c8_normalize_canonical (segs : List (List Char)) (sep : Char) (msd : List Char)
    (hs1 : 1 ≤ segs.length) (hs3 : segs.length ≤ 3)
    (hsd : ∀ sg ∈ segs, sg ≠ [] ∧ ∀ c ∈ sg, isDigit c = true)
    (hsep : sepChar sep = true) (hm1 : msd ≠ []) (hm3 : msd.length ≤ 3)
    (hmd : ∀ c ∈ msd, isDigit c = true)
    (hbound : 3600 * (segVals segs).1 + 60 * (segVals segs).2.1 +
      (segVals segs).2.2 < 360000) :
    isCanonShape (normalizeTimestamp (interc [':'] segs ++ sep :: msd)) = true := by
  rcases segs with _ | ⟨sg1, rest⟩
  · simp at hs1
  have hsg1 := hsd sg1 (by simp)
  obtain ⟨c0, sg1', hc0⟩ := List.exists_cons_of_ne_nil hsg1.1
  have hne : interc [':'] (sg1 :: rest) ++ sep :: msd ≠ [] := by
    simp
  have hhead : ∀ c, (interc [':'] (sg1 :: rest) ++ sep :: msd).head? = some c →
      jsWs c = false := by
    intro c hc
    have hh : (interc [':'] (sg1 :: rest) ++ sep :: msd).head? = some c0 := by
      cases rest <;> rw [hc0] <;> rfl
    rw [hh] at hc
    injection hc with hc
    subst hc
    exact jsWs_eq_false_of_isDigit (hsg1.2 c0 (by rw [hc0]; simp))
  have hlast : ∀ c, (interc [':'] (sg1 :: rest) ++ sep :: msd).getLast? = some c →
      jsWs c = false := by
    intro c hc
    rw [getLast?_append_right _ _ (by simp)] at hc
    obtain ⟨d, ds, hds⟩ := List.exists_cons_of_ne_nil hm1
    rw [hds, List.getLast?_cons_cons, ← hds] at hc
    exact jsWs_eq_false_of_isDigit (hmd c (getLast?_mem hc))
  have htrim : jsTrim (interc [':'] (sg1 :: rest) ++ sep :: msd) =
      interc [':'] (sg1 :: rest) ++ sep :: msd := jsTrim_of_ends hhead hlast
  have hms : msSplit (interc [':'] (sg1 :: rest) ++ sep :: msd) =
      (interc [':'] (sg1 :: rest), msd) := msSplit_append_sep _ hsep hm1 hm3 hmd
  have hcol : splitColon (interc [':'] (sg1 :: rest)) = sg1 :: rest :=
    splitColon_interc _ (by simp) (fun sg hsg c hc => (hsd sg hsg).2 c hc)
  have hmapid : (sg1 :: rest).map jsTrim = sg1 :: rest :=
    list_map_id_of (fun sg hsg => jsTrim_digits ((hsd sg hsg).2))
  have hfil : (sg1 :: rest).filter (fun s => s ≠ []) = sg1 :: rest := by
    rw [List.filter_eq_self]
    intro sg hsg
    simp [(hsd sg hsg).1]
  obtain ⟨ma, mb, mc, hpad, hda, hdb, hdc⟩ := padMsE_digits hm1 hm3 hmd
  unfold normalizeTimestamp
  rw [if_neg hne]
  simp only [htrim, hms, hcol, hmapid, hfil, hpad]
  rcases rest with _ | ⟨sg2, _ | ⟨sg3, _ | ⟨sg4, r4⟩⟩⟩
  · simp only [segVals] at hbound ⊢
    have hsgd := hsg1
    rw [pOr0_digits hsgd.1 hsgd.2] at hbound ⊢
    obtain ⟨h2, m2, s2, hro, hh2, hm2, hs2⟩ :=
      rollover_cast 0 0 (digitsVal sg1) (by omega)
    simp only [Nat.cast_zero] at hro
    rw [hro]
    simp only [intToChars_natCast]
    rw [padS2_natToChars hh2, padS2_natToChars (by omega), padS2_natToChars (by omega)]
    simp [isCanonShape, isDigit_dc_any, hda, hdb, hdc]
  · have hsg2 := hsd sg2 (by simp)
    simp only [segVals] at hbound ⊢
    rw [pOr0_digits hsg1.1 hsg1.2, pOr0_digits hsg2.1 hsg2.2] at hbound ⊢
    obtain ⟨h2, m2, s2, hro, hh2, hm2, hs2⟩ :=
      rollover_cast 0 (digitsVal sg1) (digitsVal sg2) (by omega)
    simp only [Nat.cast_zero] at hro
    rw [hro]
    simp only [intToChars_natCast]
    rw [padS2_natToChars hh2, padS2_natToChars (by omega), padS2_natToChars (by omega)]
    simp [isCanonShape, isDigit_dc_any, hda, hdb, hdc]
  · have hsg2 := hsd sg2 (by simp)
    have hsg3 := hsd sg3 (by simp)
    simp only [segVals] at hbound ⊢
    rw [pOr0_digits hsg1.1 hsg1.2, pOr0_digits hsg2.1 hsg2.2,
      pOr0_digits hsg3.1 hsg3.2] at hbound ⊢
    obtain ⟨h2, m2, s2, hro, hh2, hm2, hs2⟩ :=
      rollover_cast (digitsVal sg1) (digitsVal sg2) (digitsVal sg3) (by omega)
    rw [hro]
    simp only [intToChars_natCast]
    rw [padS2_natToChars hh2, padS2_natToChars (by omega), padS2_natToChars (by omega)]
    simp [isCanonShape, isDigit_dc_any, hda, hdb, hdc]
  · simp at hs3

/-- C8 counterexample: the in-class input "100:00:00,000" (three digit
segments, comma separator, three millisecond digits) normalizes to a string
with a three-digit hour field, which does not match the anchored pattern. -/
theorem c8_counterexample :
    isCanonShape (normalizeTimestamp "100:00:00,000".data) = false ∧
      "100:00:00,000".data =
        interc [':'] ["100".data, "00".data, "00".data] ++ ',' :: "000".data := by
  constructor
  · decide
  · decide

/-- Witness for C8 (amended) at the input "01:02:03,5". -/
theorem c8_normalize_canonical_witness :
    isCanonShape (normalizeTimestamp
      (interc [':'] ["01".data, "02".data, "03".data] ++ ',' :: "5".data)) = true :=
  c8_normalize_canonical ["01".data, "02".data, "03".data] ',' "5".data
    (by decide) (by decide) (by decide) (by decide) (by decide) (by decide)
    (by decide) (by decide)

theorem digitsVal_append_one (xs : List Char) (c : Char) :
    digitsVal (xs ++ [c]) = 10 * digitsVal xs + dVal c := by
  unfold digitsVal
  rw [List.foldl_append]
  rfl

theorem digitsVal_natToChars : ∀ n : Nat, digitsVal (natToChars n) = n := by
  intro n
  induction n using Nat.strong_induction_on with
  | _ n ih =>
    rw [natToChars_eq]
    by_cases h10 : n < 10
    · rw [if_pos h10]
      show 10 * 0 + dVal (dc n) = n
      rw [dVal_dc (by omega)]
      omega
    · rw [if_neg h10, digitsVal_append_one,
        ih (n / 10) (Nat.div_lt_self (by omega) (by omega)),
        dVal_dc (by omega : n % 10 ≤ 9)]
      omega

theorem parseIntJS_natToChars (n : Nat) : parseIntJS (natToChars n) = some n := by
  rw [parseIntJS_digits (natToChars_ne_nil n) (natToChars_digits n),
    digitsVal_natToChars]

theorem splitNl_nil : splitNl [] = [[]] := rfl

theorem splitNl_nl (r : List Char) : splitNl ('\n' :: r) = [] :: splitNl r := by
  rw [splitNl.eq_def]
  cases r <;> simp

theorem splitNl_crlf (r : List Char) : splitNl ('\r' :: '\n' :: r) = [] :: splitNl r := by
  rw [splitNl.eq_def]
  simp

theorem splitNl_cr_nil : splitNl ['\r'] = [['\r']] := by
  rw [splitNl.eq_def]
  simp

theorem splitNl_cr_cons {d : Char} (hd : ¬ (d = '\n')) (r : List Char) :
    splitNl ('\r' :: d :: r) = consHead '\r' (splitNl (d :: r)) := by
  rw [splitNl.eq_def]
  simp [hd]

theorem splitNl_other {c : Char} (hc1 : ¬ (c = '\n')) (hc2 : ¬ (c = '\r'))
    (r : List Char) : splitNl (c :: r) = consHead c (splitNl r) := by
  rw [splitNl.eq_def]
  cases r with
  | nil => simp [hc1, hc2]
  | cons d r2 => simp [hc1, hc2]

theorem splitNl_ne_nil : ∀ (t : List Char), splitNl t ≠ [] := by
  intro t
  induction t with
  | nil => simp [splitNl_nil]
  | cons c r ih =>
    by_cases hc1 : c = '\n'
    · subst hc1
      rw [splitNl_nl]
      simp
    · by_cases hc2 : c = '\r'
      · subst hc2
        cases r with
        | nil =>
          rw [splitNl_cr_nil]
          simp
        | cons d r2 =>
          by_cases hd : d = '\n'
          · subst hd
            rw [splitNl_crlf]
            simp
          · rw [splitNl_cr_cons hd]
            cases hsp : splitNl (d :: r2) with
            | nil => exact absurd hsp ih
            | cons x xs => simp [consHead]
      · rw [splitNl_other hc1 hc2]
        cases hsp : splitNl r with
        | nil => exact absurd hsp ih
        | cons x xs => simp [consHead]

theorem splitNl_no_nl : ∀ {L : List Char}, '\n' ∉ L → splitNl L = [L] := by
  intro L
  induction L with
  | nil => intro _; rfl
  | cons c r ih =>
    intro h
    have hc1 : ¬ (c = '\n') := fun hx => h (by rw [hx]; exact List.mem_cons_self _ _)
    by_cases hc2 : c = '\r'
    · subst hc2
      cases r with
      | nil => exact splitNl_cr_nil
      | cons d r2 =>
        have hd : ¬ (d = '\n') := fun hx =>
          h (by subst hx; exact List.mem_cons_of_mem _ (List.mem_cons_self _ _))
        have hr : '\n' ∉ d :: r2 := fun hx => h (List.mem_cons_of_mem _ hx)
        rw [splitNl_cr_cons hd, ih hr]
        rfl
    · have hr : '\n' ∉ r := fun hx => h (List.mem_cons_of_mem _ hx)
      rw [splitNl_other hc1 hc2, ih hr]
      rfl

theorem interc_cons2 {sep : List Char} (x y : List Char) (r : List (List Char)) :
    interc sep (x :: y :: r) = x ++ sep ++ interc sep (y :: r) := rfl

theorem interc_consHead {sep : List Char} {c : Char} {ls : List (List Char)}
    (h : ls ≠ []) : interc sep (consHead c ls) = c :: interc sep ls := by
  cases ls with
  | nil => exact absurd rfl h
  | cons l ls2 => cases ls2 <;> rfl

theorem crlfNl_nl (r : List Char) : crlfNl ('\n' :: r) = '\r' :: '\n' :: crlfNl r := by
  rw [crlfNl.eq_def]
  cases r <;> simp

theorem crlfNl_crlf (r : List Char) : crlfNl ('\r' :: '\n' :: r) = '\r' :: '\n' :: crlfNl r := by
  rw [crlfNl.eq_def]
  simp

theorem crlfNl_cr_nil : crlfNl ['\r'] = ['\r'] := by
  rw [crlfNl.eq_def]
  simp

theorem crlfNl_cr_cons {d : Char} (hd : ¬ (d = '\n')) (r : List Char) :
    crlfNl ('\r' :: d :: r) = '\r' :: crlfNl (d :: r) := by
  rw [crlfNl.eq_def]
  simp [hd]

theorem crlfNl_other {c : Char} (hc1 : ¬ (c = '\n')) (hc2 : ¬ (c = '\r'))
    (r : List Char) : crlfNl (c :: r) = c :: crlfNl r := by
  rw [crlfNl.eq_def]
  cases r with
  | nil => simp [hc1, hc2]
  | cons d r2 => simp [hc1, hc2]

theorem normNl_nl (r : List Char) : normNl ('\n' :: r) = '\n' :: normNl r := by
  rw [normNl.eq_def]
  cases r <;> simp

theorem normNl_crlf (r : List Char) : normNl ('\r' :: '\n' :: r) = '\n' :: normNl r := by
  rw [normNl.eq_def]
  simp

theorem normNl_cr_nil : normNl ['\r'] = ['\r'] := by
  rw [normNl.eq_def]
  simp

theorem normNl_cr_cons {d : Char} (hd : ¬ (d = '\n')) (r : List Char) :
    normNl ('\r' :: d :: r) = '\r' :: normNl (d :: r) := by
  rw [normNl.eq_def]
  simp [hd]

theorem normNl_other {c : Char} (hc1 : ¬ (c = '\n')) (hc2 : ¬ (c = '\r'))
    (r : List Char) : normNl (c :: r) = c :: normNl r := by
  rw [normNl.eq_def]
  cases r with
  | nil => simp [hc1, hc2]
  | cons d r2 => simp [hc1, hc2]

theorem crlfNl_eq_interc : ∀ (t : List Char),
    crlfNl t = interc ['\r', '\n'] (splitNl t) := by
  intro t
  induction t using splitNl.induct with
  | case1 => rfl
  | case2 r ih =>
    rw [crlfNl_nl, splitNl_nl]
    cases hsp : splitNl r with
    | nil => exact absurd hsp (splitNl_ne_nil r)
    | cons x xs =>
      rw [hsp] at ih
      rw [interc_cons2, ih]
      rfl
  | case3 h =>
    rw [crlfNl_cr_nil, splitNl_cr_nil]
    rfl
  | case4 r h ih =>
    rw [crlfNl_crlf, splitNl_crlf]
    cases hsp : splitNl r with
    | nil => exact absurd hsp (splitNl_ne_nil r)
    | cons x xs =>
      rw [hsp] at ih
      rw [interc_cons2, ih]
      rfl
  | case5 d r hd h ih =>
    rw [crlfNl_cr_cons hd, splitNl_cr_cons hd, ih,
      interc_consHead (splitNl_ne_nil (d :: r))]
  | case6 c r hc1 hc2 ih =>
    rw [crlfNl_other hc1 hc2, splitNl_other hc1 hc2, ih,
      interc_consHead (splitNl_ne_nil r)]

theorem normNl_eq_interc : ∀ (t : List Char),
    normNl t = interc ['\n'] (splitNl t) := by
  intro t
  induction t using splitNl.induct with
  | case1 => rfl
  | case2 r ih =>
    rw [normNl_nl, splitNl_nl]
    cases hsp : splitNl r with
    | nil => exact absurd hsp (splitNl_ne_nil r)
    | cons x xs =>
      rw [hsp] at ih
      rw [interc_cons2, ih]
      rfl
  | case3 h =>
    rw [normNl_cr_nil, splitNl_cr_nil]
    rfl
  | case4 r h ih =>
    rw [normNl_crlf, splitNl_crlf]
    cases hsp : splitNl r with
    | nil => exact absurd hsp (splitNl_ne_nil r)
    | cons x xs =>
      rw [hsp] at ih
      rw [interc_cons2, ih]
      rfl
  | case5 d r hd h ih =>
    rw [normNl_cr_cons hd, splitNl_cr_cons hd, ih,
      interc_consHead (splitNl_ne_nil (d :: r))]
  | case6 c r hc1 hc2 ih =>
    rw [normNl_other hc1 hc2, splitNl_other hc1 hc2, ih,
      interc_consHead (splitNl_ne_nil r)]

theorem splitNl_append_crlf : ∀ {L : List Char} (T : List Char), '\n' ∉ L →
    splitNl (L ++ '\r' :: '\n' :: T) = L :: splitNl T := by
  intro L
  induction L with
  | nil =>
    intro T _
    exact splitNl_crlf T
  | cons c L' ih =>
    intro T h
    have hc1 : ¬ (c = '\n') := fun hx => h (by rw [hx]; exact List.mem_cons_self _ _)
    have hL' : '\n' ∉ L' := fun hx => h (List.mem_cons_of_mem _ hx)
    by_cases hc2 : c = '\r'
    · subst hc2
      cases L' with
      | nil =>
        show splitNl ('\r' :: '\r' :: '\n' :: T) = _
        rw [splitNl_cr_cons (by decide), splitNl_crlf]
        rfl
      | cons d L'' =>
        have hd : ¬ (d = '\n') := fun hx =>
          hL' (by rw [hx]; exact List.mem_cons_self _ _)
        show splitNl ('\r' :: ((d :: L'') ++ '\r' :: '\n' :: T)) = _
        rw [List.cons_append, splitNl_cr_cons hd, ← List.cons_append, ih T hL']
        rfl
    · show splitNl (c :: (L' ++ '\r' :: '\n' :: T)) = _
      rw [splitNl_other hc1 hc2, ih T hL']
      rfl

theorem splitNl_interc : ∀ (Ls : List (List Char)), Ls ≠ [] →
    (∀ L ∈ Ls, '\n' ∉ L) → splitNl (interc ['\r', '\n'] Ls) = Ls := by
  intro Ls
  induction Ls with
  | nil => intro h _; exact absurd rfl h
  | cons L rest ih =>
    intro _ hno
    cases rest with
    | nil => exact splitNl_no_nl (hno L (by simp))
    | cons L2 rest2 =>
      rw [interc_cons2]
      have hassoc : L ++ ['\r', '\n'] ++ interc ['\r', '\n'] (L2 :: rest2) =
          L ++ '\r' :: '\n' :: interc ['\r', '\n'] (L2 :: rest2) := by
        rw [List.append_assoc]
        rfl
      rw [hassoc, splitNl_append_crlf _ (hno L (by simp)),
        ih (by simp) (fun x hx => hno x (by simp [hx]))]

theorem splitNl_mem_no_nl : ∀ (t : List Char), ∀ L ∈ splitNl t, '\n' ∉ L := by
  intro t
  induction t using splitNl.induct with
  | case1 =>
    intro L hL
    rw [splitNl_nil, List.mem_singleton] at hL
    simp [hL]
  | case2 r ih =>
    intro L hL
    rw [splitNl_nl, List.mem_cons] at hL
    rcases hL with rfl | hL
    · simp
    · exact ih L hL
  | case3 h =>
    intro L hL
    rw [splitNl_cr_nil, List.mem_singleton] at hL
    subst hL
    simp
  | case4 r h ih =>
    intro L hL
    rw [splitNl_crlf, List.mem_cons] at hL
    rcases hL with rfl | hL
    · simp
    · exact ih L hL
  | case5 d r hd h ih =>
    intro L hL
    rw [splitNl_cr_cons hd] at hL
    cases hsp : splitNl (d :: r) with
    | nil => exact absurd hsp (splitNl_ne_nil _)
    | cons x xs =>
      rw [hsp] at hL
      rw [show consHead '\r' (x :: xs) = ('\r' :: x) :: xs from rfl,
        List.mem_cons] at hL
      rcases hL with rfl | hL
      · have hx : '\n' ∉ x := ih x (by rw [hsp]; simp)
        intro hmem
        rw [List.mem_cons] at hmem
        rcases hmem with hmem | hmem
        · cases hmem
        · exact hx hmem
      · exact ih L (by rw [hsp]; simp [hL])
  | case6 c r hc1 hc2 ih =>
    intro L hL
    rw [splitNl_other hc1 hc2] at hL
    cases hsp : splitNl r with
    | nil => exact absurd hsp (splitNl_ne_nil _)
    | cons x xs =>
      rw [hsp] at hL
      rw [show consHead c (x :: xs) = (c :: x) :: xs from rfl,
        List.mem_cons] at hL
      rcases hL with rfl | hL
      · have hx : '\n' ∉ x := ih x (by rw [hsp]; simp)
        intro hmem
        rw [List.mem_cons] at hmem
        rcases hmem with hmem | hmem
        · exact hc1 hmem.symm
        · exact hx hmem
      · exact ih L (by rw [hsp]; simp [hL])

/-! ### Block-splitting lemmas for the round-trip -/

theorem splitSepAux_zero (cs acc : List Char) :
    splitSepAux 0 cs acc = [acc.reverse ++ cs] := rfl

theorem splitSepAux_succ_nil (fuel : Nat) (acc : List Char) :
    splitSepAux (fuel + 1) [] acc = [acc.reverse] := rfl

theorem splitSepAux_succ_some {c : Char} {rest : List Char} {k : Nat}
    (fuel : Nat) (acc : List Char) (hm : matchSepLen (c :: rest) = some k) :
    splitSepAux (fuel + 1) (c :: rest) acc =
      acc.reverse :: splitSepAux fuel ((c :: rest).drop k) [] := by
  have hstep : splitSepAux (fuel + 1) (c :: rest) acc =
      match matchSepLen (c :: rest) with
      | some k => acc.reverse :: splitSepAux fuel ((c :: rest).drop k) []
      | none => splitSepAux fuel rest (c :: acc) := rfl
  rw [hstep, hm]

theorem splitSepAux_succ_none {c : Char} {rest : List Char}
    (fuel : Nat) (acc : List Char) (hm : matchSepLen (c :: rest) = none) :
    splitSepAux (fuel + 1) (c :: rest) acc = splitSepAux fuel rest (c :: acc) := by
  have hstep : splitSepAux (fuel + 1) (c :: rest) acc =
      match matchSepLen (c :: rest) with
      | some k => acc.reverse :: splitSepAux fuel ((c :: rest).drop k) []
      | none => splitSepAux fuel rest (c :: acc) := rfl
  rw [hstep, hm]

theorem matchSepLen_pos {cs : List Char} {k : Nat} (h : matchSepLen cs = some k) :
    1 ≤ k := by
  unfold matchSepLen at h
  cases hn : nlLen cs with
  | none => rw [hn] at h; exact absurd h (by simp)
  | some j =>
    rw [hn] at h
    simp only [] at h
    split at h
    · injection h with h2
      omega
    · exact absurd h (by simp)

theorem splitSepAux_fuel : ∀ (f1 f2 : Nat) (cs acc : List Char),
    cs.length ≤ f1 → cs.length ≤ f2 → splitSepAux f1 cs acc = splitSepAux f2 cs acc := by
  intro f1
  induction f1 with
  | zero =>
    intro f2 cs acc h1 _
    have : cs = [] := List.eq_nil_of_length_eq_zero (by omega)
    subst this
    cases f2 with
    | zero => rfl
    | succ g => rw [splitSepAux_zero, splitSepAux_succ_nil, List.append_nil]
  | succ g1 ih =>
    intro f2 cs acc h1 h2
    cases cs with
    | nil =>
      cases f2 with
      | zero => rw [splitSepAux_zero, splitSepAux_succ_nil, List.append_nil]
      | succ g2 => rw [splitSepAux_succ_nil, splitSepAux_succ_nil]
    | cons c rest =>
      cases f2 with
      | zero => exact absurd h2 (by simp)
      | succ g2 =>
        cases hm : matchSepLen (c :: rest) with
        | some k =>
          rw [splitSepAux_succ_some g1 acc hm, splitSepAux_succ_some g2 acc hm]
          have hk := matchSepLen_pos hm
          have hlen : ((c :: rest).drop k).length ≤ rest.length := by
            rw [List.length_drop]
            simp only [List.length_cons]
            omega
          rw [ih g2 _ [] (by simp at h1; omega) (by simp at h2; omega)]
        | none =>
          rw [splitSepAux_succ_none g1 acc hm, splitSepAux_succ_none g2 acc hm]
          exact ih g2 rest (c :: acc) (by simp at h1; omega) (by simp at h2; omega)

theorem suffix_of_append {α : Type} : ∀ {X Y L M : List α}, X ++ Y = L ++ M →
    (∃ a, L = X ++ a ∧ Y = a ++ M) ∨ (∃ b, M = b ++ Y ∧ X = L ++ b) := by
  intro X
  induction X with
  | nil =>
    intro Y L M h
    exact Or.inl ⟨L, rfl, h⟩
  | cons x X' ih =>
    intro Y L M h
    cases L with
    | nil =>
      exact Or.inr ⟨x :: X', h.symm, rfl⟩
    | cons l L' =>
      rw [List.cons_append, List.cons_append] at h
      injection h with h1 h2
      subst h1
      rcases ih h2 with ⟨a, ha1, ha2⟩ | ⟨b, hb1, hb2⟩
      · exact Or.inl ⟨a, by rw [ha1, List.cons_append], ha2⟩
      · exact Or.inr ⟨b, hb1, by rw [hb2, List.cons_append]⟩

theorem matchSepLen_none_of_no_nl {Y T : List Char} (hY : ∀ c ∈ Y, ¬ c = '\n')
    (hT : ∀ c, T.head? = some c → ¬ c = '\n') (hne : Y ≠ []) :
    matchSepLen (Y ++ T) = none := by
  obtain ⟨c, Y', rfl⟩ := List.exists_cons_of_ne_nil hne
  have hc : ¬ c = '\n' := hY c (by simp)
  rw [List.cons_append]
  have hnl : nlLen (c :: (Y' ++ T)) = none := by
    cases hYT : Y' ++ T with
    | nil => simp [nlLen, hc]
    | cons d r =>
      have hd : ¬ d = '\n' := by
        cases Y' with
        | nil =>
          refine hT d ?h
          simp only [List.nil_append] at hYT
          rw [hYT]
          rfl
        | cons e Y'' =>
          rw [List.cons_append] at hYT
          have he : e = d := (List.cons_eq_cons.mp hYT).1
          subst he
          exact hY e (by simp)
      simp [nlLen, hYT, hc, hd]
  unfold matchSepLen
  rw [hnl]

theorem takeWhile_append_all {p : Char → Bool} : ∀ {A : List Char} (B : List Char),
    (∀ a ∈ A, p a = true) → (A ++ B).takeWhile p = A ++ B.takeWhile p := by
  intro A
  induction A with
  | nil => intro B _; rfl
  | cons a A' ih =>
    intro B h
    rw [List.cons_append, List.takeWhile_cons, if_pos (h a (by simp)),
      ih B (fun x hx => h x (by simp [hx])), List.cons_append]

theorem dropWhile_head_false {p : Char → Bool} : ∀ {l : List Char} {c : Char}
    {R : List Char}, l.dropWhile p = c :: R → p c = false := by
  intro l
  induction l with
  | nil => intro c R h; exact absurd h (by simp)
  | cons a t ih =>
    intro c R h
    rw [List.dropWhile_cons] at h
    by_cases hp : p a = true
    · rw [if_pos hp] at h
      exact ih h
    · rw [if_neg hp] at h
      injection h with h1 _
      subst h1
      exact Bool.not_eq_true _ |>.mp hp

theorem matchSepLen_none_run {k : Nat} {cs L R : List Char}
    (hnl : nlLen cs = some k) (hdrop : cs.drop k = L ++ R)
    (hL : '\n' ∉ L) (hany : L.any (fun c => !jsWs c) = true) :
    matchSepLen cs = none := by
  have hdw : L.dropWhile jsWs ≠ [] := by
    rw [Ne, List.dropWhile_eq_nil_iff]
    intro hall
    simp only [List.any_eq_true, Bool.not_eq_true'] at hany
    obtain ⟨c, hcL, hc⟩ := hany
    rw [hall c hcL] at hc
    exact absurd hc (by simp)
  obtain ⟨c, R2, hcR⟩ := List.exists_cons_of_ne_nil hdw
  have hcp : jsWs c = false := dropWhile_head_false hcR
  have hWL : L.takeWhile jsWs ++ (c :: R2) = L := by
    rw [← hcR, List.takeWhile_append_dropWhile]
  have hw : (L ++ R).takeWhile jsWs = L.takeWhile jsWs := by
    conv_lhs => rw [← hWL]
    rw [List.append_assoc,
      takeWhile_append_all _ (fun a ha => List.mem_takeWhile_imp ha),
      List.cons_append, List.takeWhile_cons, hcp]
    simp
  have hno : '\n' ∉ L.takeWhile jsWs := fun hmem =>
    hL ((List.takeWhile_sublist jsWs).subset hmem)
  have hri : (L.takeWhile jsWs).reverse.indexOf '\n' =
      (L.takeWhile jsWs).reverse.length :=
    List.indexOf_eq_length.mpr (by rw [List.mem_reverse]; exact hno)
  unfold matchSepLen
  rw [hnl]
  simp only [hdrop, hw, hri, List.length_reverse]
  rw [if_neg (by omega)]

theorem matchSepLen_junction {T : List Char}
    (hT : ∀ c, T.head? = some c → jsWs c = false) :
    matchSepLen ('\r' :: '\n' :: '\r' :: '\n' :: T) = some 4 := by
  have h1 : nlLen ('\r' :: '\n' :: '\r' :: '\n' :: T) = some 2 := by
    simp [nlLen]
  have h3 : ('\r' :: '\n' :: T).takeWhile jsWs = ['\r', '\n'] := by
    rw [List.takeWhile_cons, if_pos (by decide), List.takeWhile_cons, if_pos (by decide)]
    cases T with
    | nil => rfl
    | cons c T' =>
      rw [List.takeWhile_cons, if_neg (by rw [hT c rfl]; simp)]
  unfold matchSepLen
  rw [h1]
  simp only [List.drop_succ_cons, List.drop_zero, h3]
  decide

theorem splitSepAux_skip : ∀ (B : List Char) (fuel : Nat) (acc T : List Char),
    (∀ X Y, B = X ++ Y → Y ≠ [] → matchSepLen (Y ++ T) = none) →
    splitSepAux (B.length + fuel) (B ++ T) acc = splitSepAux fuel T (B.reverse ++ acc) := by
  intro B
  induction B with
  | nil =>
    intro fuel acc T _
    simp
  | cons c B' ih =>
    intro fuel acc T h
    have hm : matchSepLen ((c :: B') ++ T) = none :=
      h [] (c :: B') rfl (by simp)
    rw [List.cons_append] at hm
    have hlen : (c :: B').length + fuel = (B'.length + fuel) + 1 := by
      simp only [List.length_cons]
      omega
    rw [hlen, List.cons_append, splitSepAux_succ_none _ acc hm,
      ih fuel (c :: acc) T
        (fun X Y hXY hYne => h (c :: X) Y (by rw [hXY, List.cons_append]) hYne)]
    congr 1
    simp

theorem interc_head {sep : List Char} : ∀ {B : List Char}
    (rest : List (List Char)), B ≠ [] → (interc sep (B :: rest)).head? = B.head? := by
  intro B rest hB
  obtain ⟨b, B', rfl⟩ := List.exists_cons_of_ne_nil hB
  cases rest with
  | nil => rfl
  | cons C r =>
    show ((b :: B') ++ sep ++ interc sep (C :: r)).head? = _
    rfl

theorem interc_getLast {sep : List Char} : ∀ (ls : List (List Char)) (L : List Char),
    L ≠ [] → (interc sep (ls ++ [L])).getLast? = L.getLast? := by
  intro ls
  induction ls with
  | nil => intro L _; rfl
  | cons A ls' ih =>
    intro L hL
    obtain ⟨C, r, hr⟩ : ∃ C r, ls' ++ [L] = C :: r := by
      cases hc : ls' ++ [L] with
      | nil => exact absurd hc (by simp)
      | cons C r => exact ⟨C, r, rfl⟩
    have hne : interc sep (ls' ++ [L]) ≠ [] := by
      intro hnil
      have h1 := ih L hL
      rw [hnil] at h1
      have h2 : L.getLast? = none := by rw [← h1]; rfl
      rw [List.getLast?_eq_none_iff] at h2
      exact hL h2
    show (interc sep (A :: (ls' ++ [L]))).getLast? = _
    rw [hr]
    show (A ++ sep ++ interc sep (C :: r)).getLast? = _
    rw [← hr, List.append_assoc, getLast?_append_right _ _
      (by simp [hne]), getLast?_append_right _ _ hne, ih L hL]

theorem nlLen_nl (t : List Char) : nlLen ('\n' :: t) = some 1 := by
  cases t with
  | nil => rfl
  | cons d r => simp [nlLen]

theorem interc_no_sep : ∀ (Ls : List (List Char)) (J : List Char),
    (∀ L ∈ Ls, '\n' ∉ L ∧ L.any (fun c => !jsWs c) = true) →
    (∀ c, J.head? = some c → ¬ c = '\n') →
    ∀ X Y, interc ['\r', '\n'] Ls = X ++ Y → Y ≠ [] →
    matchSepLen (Y ++ J) = none := by
  intro Ls
  induction Ls with
  | nil =>
    intro J _ _ X Y hXY hYne
    exact absurd (List.append_eq_nil.mp hXY.symm).2 hYne
  | cons L rest ih =>
    intro J hLs hJ X Y hXY hYne
    have hLno : '\n' ∉ L := (hLs L (by simp)).1
    cases rest with
    | nil =>
      have hLXY : L = X ++ Y := hXY
      refine matchSepLen_none_of_no_nl ?hy1 hJ hYne
      intro c hcY hc
      subst hc
      exact hLno (by rw [hLXY]; exact List.mem_append_right X hcY)
    | cons L2 rest2 =>
      have hM : interc ['\r', '\n'] (L :: L2 :: rest2) =
          L ++ ('\r' :: '\n' :: interc ['\r', '\n'] (L2 :: rest2)) := by
        show (L ++ ['\r', '\n']) ++ interc ['\r', '\n'] (L2 :: rest2) = _
        rw [List.append_assoc]
        rfl
      have hXYLM : X ++ Y = L ++ ('\r' :: '\n' :: interc ['\r', '\n'] (L2 :: rest2)) := by
        rw [← hXY, hM]
      have hL2 := hLs L2 (by simp)
      obtain ⟨R, hR⟩ : ∃ R, interc ['\r', '\n'] (L2 :: rest2) ++ J = L2 ++ R := by
        cases rest2 with
        | nil => exact ⟨J, rfl⟩
        | cons L3 r3 =>
          refine ⟨'\r' :: '\n' :: interc ['\r', '\n'] (L3 :: r3) ++ J, ?hr⟩
          show ((L2 ++ ['\r', '\n']) ++ interc ['\r', '\n'] (L3 :: r3)) ++ J = _
          rw [List.append_assoc, List.append_assoc]
          rfl
      have hjun : matchSepLen (('\r' :: '\n' :: interc ['\r', '\n'] (L2 :: rest2)) ++ J) =
          none := by
        rw [List.cons_append, List.cons_append]
        refine matchSepLen_none_run (k := 2) (R := R) (by simp [nlLen]) ?hd hL2.1 hL2.2
        show interc ['\r', '\n'] (L2 :: rest2) ++ J = L2 ++ R
        exact hR
      rcases suffix_of_append hXYLM with ⟨a, hLa, hYa⟩ | ⟨b, hMb, _⟩
      · cases a with
        | nil =>
          rw [hYa, List.nil_append]
          exact hjun
        | cons a0 a' =>
          have h1 : Y ++ J = (a0 :: a') ++
              (('\r' :: '\n' :: interc ['\r', '\n'] (L2 :: rest2)) ++ J) := by
            rw [hYa, List.append_assoc]
          rw [h1]
          refine matchSepLen_none_of_no_nl ?hy2 ?ht2 (by simp)
          · intro c hc hceq
            subst hceq
            exact hLno (by rw [hLa]; exact List.mem_append_right X hc)
          · intro c hc
            simp only [List.cons_append, List.head?_cons, Option.some_inj] at hc
            subst hc
            decide
      · cases b with
        | nil =>
          simp only [List.nil_append] at hMb
          rw [← hMb]
          exact hjun
        | cons b0 b' =>
          rw [List.cons_append] at hMb
          injection hMb with hb0 hMb2
          cases b' with
          | nil =>
            simp only [List.nil_append] at hMb2
            rw [← hMb2, List.cons_append]
            refine matchSepLen_none_run (k := 1) (R := R) (nlLen_nl _) ?hd2 hL2.1 hL2.2
            show interc ['\r', '\n'] (L2 :: rest2) ++ J = L2 ++ R
            exact hR
          | cons b1 b'' =>
            rw [List.cons_append] at hMb2
            injection hMb2 with hb1 hMb3
            exact ih J (fun L' hL' => hLs L' (by simp [hL'])) hJ b'' Y hMb3 hYne

theorem splitSepAux_interc : ∀ (Bs : List (List Char)),
    (∀ B ∈ Bs, B ≠ [] ∧ (∀ c, B.head? = some c → jsWs c = false) ∧
      ∃ Ls, Ls ≠ [] ∧ B = interc ['\r', '\n'] Ls ∧
        ∀ L ∈ Ls, '\n' ∉ L ∧ L.any (fun c => !jsWs c) = true) →
    Bs ≠ [] →
    ∀ fuel, (interc ['\r', '\n', '\r', '\n'] Bs).length ≤ fuel →
    splitSepAux fuel (interc ['\r', '\n', '\r', '\n'] Bs) [] = Bs := by
  intro Bs
  induction Bs with
  | nil => intro _ hne; exact absurd rfl hne
  | cons B rest ih =>
    intro hgood _ fuel hfl
    obtain ⟨hBne, _, Ls, hLne, hBLs, hLs⟩ := hgood B (by simp)
    cases rest with
    | nil =>
      have hfl1 : B.length ≤ fuel := hfl
      have hskip := splitSepAux_skip B (fuel - B.length) [] []
        (fun X Y hXY hYne =>
          interc_no_sep Ls [] hLs (fun c hc => by simp at hc) X Y
            (hBLs.symm.trans hXY) hYne)
      rw [show B.length + (fuel - B.length) = fuel from by omega,
        List.append_nil] at hskip
      show splitSepAux fuel B [] = [B]
      rw [hskip]
      cases hf : fuel - B.length with
      | zero => rw [splitSepAux_zero]; simp
      | succ g => rw [splitSepAux_succ_nil]; simp
    | cons B2 rest2 =>
      obtain ⟨hB2ne, hB2hd, _⟩ := hgood B2 (by simp)
      have hdec : interc ['\r', '\n', '\r', '\n'] (B :: B2 :: rest2) =
          B ++ ('\r' :: '\n' :: '\r' :: '\n' ::
            interc ['\r', '\n', '\r', '\n'] (B2 :: rest2)) := by
        show (B ++ ['\r', '\n', '\r', '\n']) ++ _ = _
        rw [List.append_assoc]
        rfl
      have hhead : ∀ c, (interc ['\r', '\n', '\r', '\n'] (B2 :: rest2)).head? = some c →
          jsWs c = false := by
        intro c hc
        rw [interc_head rest2 hB2ne] at hc
        exact hB2hd c hc
      have hlen : (interc ['\r', '\n', '\r', '\n'] (B :: B2 :: rest2)).length =
          B.length + 4 + (interc ['\r', '\n', '\r', '\n'] (B2 :: rest2)).length := by
        rw [hdec]
        simp only [List.length_append, List.length_cons]
        omega
      have hfl2 : B.length + 4 + (interc ['\r', '\n', '\r', '\n'] (B2 :: rest2)).length ≤
          fuel := by rw [← hlen]; exact hfl
      have hskip := splitSepAux_skip B (fuel - B.length) []
        ('\r' :: '\n' :: '\r' :: '\n' :: interc ['\r', '\n', '\r', '\n'] (B2 :: rest2))
        (fun X Y hXY hYne =>
          interc_no_sep Ls _ hLs
            (fun c hc => by
              simp only [List.head?_cons, Option.some_inj] at hc
              subst hc
              decide) X Y (hBLs.symm.trans hXY) hYne)
      rw [show B.length + (fuel - B.length) = fuel from by omega] at hskip
      rw [hdec, hskip,
        show fuel - B.length = (fuel - B.length - 1) + 1 from by omega,
        splitSepAux_succ_some _ _ (matchSepLen_junction hhead)]
      have hdrop : ('\r' :: '\n' :: '\r' :: '\n' ::
          interc ['\r', '\n', '\r', '\n'] (B2 :: rest2)).drop 4 =
          interc ['\r', '\n', '\r', '\n'] (B2 :: rest2) := rfl
      rw [hdrop, ih (fun B' hB' => hgood B' (by simp [hB'])) (by simp)
        (fuel - B.length - 1) (by omega)]
      simp

theorem splitBlocks_interc (Bs : List (List Char))
    (hgood : ∀ B ∈ Bs, B ≠ [] ∧ (∀ c, B.head? = some c → jsWs c = false) ∧
      ∃ Ls, Ls ≠ [] ∧ B = interc ['\r', '\n'] Ls ∧
        ∀ L ∈ Ls, '\n' ∉ L ∧ L.any (fun c => !jsWs c) = true)
    (hne : Bs ≠ []) :
    splitBlocks (interc ['\r', '\n', '\r', '\n'] Bs) = Bs :=
  splitSepAux_interc Bs hgood hne _ (le_refl _)

theorem canonTs_mkTs {ts : List Char} (h : canonTs ts = true) :
    ∃ hh mm ss ms, hh ≤ 99 ∧ mm ≤ 59 ∧ ss ≤ 59 ∧ ms ≤ 999 ∧ ts = mkTs hh mm ss ms := by
  rw [canonTs_iff] at h
  obtain ⟨hlt, hrt⟩ := h
  have h0 := timestampToMs_nonneg ts
  obtain ⟨n, hn⟩ := Int.eq_ofNat_of_zero_le h0
  have hnlt : n < 360000000 := by omega
  refine ⟨n / 3600000, n / 60000 % 60, n / 1000 % 60, n % 1000,
    by omega, by omega, by omega, by omega, ?hts⟩
  have hde : n = ((n / 3600000) * 3600 + (n / 60000 % 60) * 60 + (n / 1000 % 60)) * 1000 +
      n % 1000 := by omega
  rw [← hrt, hn]
  conv_lhs => rw [hde]
  rw [msToTimestamp_mkTs (by omega) (by omega) (by omega) (by omega)]

theorem mkTs_mem {h m s ms : Nat} {c : Char} (hc : c ∈ mkTs h m s ms) :
    isDigit c = true ∨ c = ':' ∨ c = ',' := by
  simp only [mkTs, List.mem_cons, List.not_mem_nil, or_false] at hc
  rcases hc with rfl | rfl | rfl | rfl | rfl | rfl | rfl | rfl | rfl | rfl | rfl | rfl
  · exact Or.inl (isDigit_dc_any _)
  · exact Or.inl (isDigit_dc_any _)
  · exact Or.inr (Or.inl rfl)
  · exact Or.inl (isDigit_dc_any _)
  · exact Or.inl (isDigit_dc_any _)
  · exact Or.inr (Or.inl rfl)
  · exact Or.inl (isDigit_dc_any _)
  · exact Or.inl (isDigit_dc_any _)
  · exact Or.inr (Or.inr rfl)
  · exact Or.inl (isDigit_dc_any _)
  · exact Or.inl (isDigit_dc_any _)
  · exact Or.inl (isDigit_dc_any _)

theorem mkTs_mem_not_nl {h m s ms : Nat} {c : Char} (hc : c ∈ mkTs h m s ms) :
    ¬ c = '\n' := by
  intro he
  subst he
  rcases mkTs_mem hc with hd | hd | hd
  · simp [isDigit] at hd
  · exact absurd hd (by decide)
  · exact absurd hd (by decide)

theorem mkTs_mem_not_dash {h m s ms : Nat} {c : Char} (hc : c ∈ mkTs h m s ms) :
    ¬ c = '-' := by
  intro he
  subst he
  rcases mkTs_mem hc with hd | hd | hd
  · simp [isDigit] at hd
  · exact absurd hd (by decide)
  · exact absurd hd (by decide)

theorem findArrow_cons (c : Char) (rest : List Char) :
    findArrow (c :: rest) = if isArrowHead (c :: rest) then some ([], (c :: rest).drop 3)
      else (findArrow rest).map (fun p => (c :: p.1, p.2)) := rfl

theorem isArrowHead_cons_ne {a : Char} (t : List Char) (ha : ¬ a = '-') :
    isArrowHead (a :: t) = false := by
  simp only [isArrowHead, decide_eq_false_iff_not]
  intro he
  have ht : (a :: t).take 3 = a :: t.take 2 := rfl
  rw [ht] at he
  injection he with h1 _
  exact ha h1

theorem findArrow_append : ∀ {A : List Char}, '-' ∉ A → ∀ (rest : List Char),
    findArrow (A ++ '-' :: '-' :: '>' :: rest) = some (A, rest) := by
  intro A
  induction A with
  | nil =>
    intro _ rest
    rw [List.nil_append, findArrow_cons, if_pos (by rfl)]
    rfl
  | cons a A' ih =>
    intro hA rest
    have ha : ¬ a = '-' := fun he => hA (by rw [he]; exact List.mem_cons_self _ _)
    rw [List.cons_append, findArrow_cons,
      if_neg (by rw [isArrowHead_cons_ne _ ha]; simp),
      ih (fun hm => hA (List.mem_cons_of_mem _ hm)) rest]
    rfl

theorem arrowMatch_mkTs {h1 m1 s1 ms1 h2 m2 s2 ms2 : Nat} :
    arrowMatch (mkTs h1 m1 s1 ms1 ++ ' ' :: '-' :: '-' :: '>' :: ' ' :: mkTs h2 m2 s2 ms2) =
      some (mkTs h1 m1 s1 ms1, mkTs h2 m2 s2 ms2) := by
  have hre : mkTs h1 m1 s1 ms1 ++ ' ' :: '-' :: '-' :: '>' :: ' ' :: mkTs h2 m2 s2 ms2 =
      (mkTs h1 m1 s1 ms1 ++ [' ']) ++ '-' :: '-' :: '>' :: (' ' :: mkTs h2 m2 s2 ms2) := by
    rw [List.append_assoc]
    rfl
  have hnd : '-' ∉ mkTs h1 m1 s1 ms1 ++ [' '] := by
    intro hm
    rcases List.mem_append.mp hm with hm | hm
    · exact mkTs_mem_not_dash hm rfl
    · rw [List.mem_singleton] at hm
      exact absurd hm (by decide)
  unfold arrowMatch
  rw [hre, findArrow_append hnd]
  have hc1 : ((mkTs h1 m1 s1 ms1 ++ [' ']).reverse.dropWhile jsWs).reverse =
      mkTs h1 m1 s1 ms1 := by
    rw [List.reverse_append]
    show ((' ' :: (mkTs h1 m1 s1 ms1).reverse).dropWhile jsWs).reverse = _
    rw [List.dropWhile_cons, if_pos (by decide),
      dropWhile_eq_self_of_head (fun c hc => by
        rw [mkTs_reverse] at hc
        simp only [List.head?_cons, Option.some_inj] at hc
        subst hc
        exact jsWs_dc _),
      List.reverse_reverse]
  have hc2 : (' ' :: mkTs h2 m2 s2 ms2).dropWhile jsWs = mkTs h2 m2 s2 ms2 := by
    rw [List.dropWhile_cons, if_pos (by decide),
      dropWhile_eq_self_of_head (fun c hc => by
        simp only [mkTs, List.head?_cons, Option.some_inj] at hc
        subst hc
        exact jsWs_dc _)]
  simp only [Option.map_some', hc1, hc2]

theorem goodText_lines {t : List Char} (h : goodText t = true) :
    ∀ L ∈ splitNl t, '\n' ∉ L ∧ L.any (fun c => !jsWs c) = true := by
  simp only [goodText, Bool.and_eq_true] at h
  intro L hL
  refine ⟨splitNl_mem_no_nl t L hL, ?ha⟩
  exact List.all_eq_true.mp h.1 L hL

theorem goodText_ne_nil {t : List Char} (h : goodText t = true) : t ≠ [] := by
  intro he
  subst he
  have := goodText_lines h [] (by rw [splitNl_nil]; simp)
  simp at this

theorem goodText_last {t : List Char} (h : goodText t = true) :
    ∀ c, t.getLast? = some c → jsWs c = false := by
  simp only [goodText, Bool.and_eq_true] at h
  intro c hc
  have h2 := h.2
  rw [hc] at h2
  simpa using h2

theorem crlfNl_ne_nil : ∀ {t : List Char}, t ≠ [] → crlfNl t ≠ [] := by
  intro t
  induction t using splitNl.induct with
  | case1 => intro h; exact absurd rfl h
  | case2 r ih => intro _; rw [crlfNl_nl]; simp
  | case3 h => intro _; rw [crlfNl_cr_nil]; simp
  | case4 r h ih => intro _; rw [crlfNl_crlf]; simp
  | case5 d r hd h ih => intro _; rw [crlfNl_cr_cons hd]; simp
  | case6 c r hc1 hc2 ih => intro _; rw [crlfNl_other hc1 hc2]; simp

theorem crlfNl_getLast : ∀ (t : List Char), (crlfNl t).getLast? = t.getLast? := by
  intro t
  induction t using splitNl.induct with
  | case1 => rfl
  | case2 r ih =>
    rw [crlfNl_nl]
    cases hr : r with
    | nil => rfl
    | cons x xs =>
      rw [hr] at ih
      have hcne : crlfNl (x :: xs) ≠ [] := crlfNl_ne_nil (by simp)
      obtain ⟨y, ys, hy⟩ := List.exists_cons_of_ne_nil hcne
      rw [hy, List.getLast?_cons_cons, List.getLast?_cons_cons, ← hy, ih,
        List.getLast?_cons_cons]
  | case3 h => rfl
  | case4 r h ih =>
    rw [crlfNl_crlf]
    cases hr : r with
    | nil => rfl
    | cons x xs =>
      rw [hr] at ih
      have hcne : crlfNl (x :: xs) ≠ [] := crlfNl_ne_nil (by simp)
      obtain ⟨y, ys, hy⟩ := List.exists_cons_of_ne_nil hcne
      rw [hy, List.getLast?_cons_cons, List.getLast?_cons_cons, ← hy, ih,
        List.getLast?_cons_cons, List.getLast?_cons_cons]
  | case5 d r hd h ih =>
    rw [crlfNl_cr_cons hd]
    have hcne : crlfNl (d :: r) ≠ [] := crlfNl_ne_nil (by simp)
    obtain ⟨y, ys, hy⟩ := List.exists_cons_of_ne_nil hcne
    rw [hy, List.getLast?_cons_cons, ← hy, ih, List.getLast?_cons_cons]
  | case6 c r hc1 hc2 ih =>
    rw [crlfNl_other hc1 hc2]
    cases hr : r with
    | nil => rfl
    | cons x xs =>
      rw [hr] at ih
      have hcne : crlfNl (x :: xs) ≠ [] := crlfNl_ne_nil (by simp)
      obtain ⟨y, ys, hy⟩ := List.exists_cons_of_ne_nil hcne
      rw [hy, List.getLast?_cons_cons, ← hy, ih, List.getLast?_cons_cons]

theorem not_nl_natToChars (n : Nat) : '\n' ∉ natToChars n := by
  intro hm
  have := natToChars_digits n '\n' hm
  simp [isDigit] at this

theorem parseBlock_mkBlock (n : Nat) (e : SrtEntryData) (hwf : wfEntry e = true) :
    parseBlock (mkBlock n e) = some { index := (n : Int), startTime := e.startTime,
                                      endTime := e.endTime, text := normNl e.text } := by
  simp only [wfEntry, Bool.and_eq_true] at hwf
  obtain ⟨⟨⟨hcs, hce⟩, _⟩, hgt⟩ := hwf
  obtain ⟨h1, m1, s1, ms1, hbh1, hbm1, hbs1, hbz1, hst⟩ := canonTs_mkTs hcs
  obtain ⟨h2, m2, s2, ms2, hbh2, hbm2, hbs2, hbz2, het⟩ := canonTs_mkTs hce
  have htne : e.text ≠ [] := goodText_ne_nil hgt
  have hmb : mkBlock n e = natToChars n ++ '\r' :: '\n' ::
      ((mkTs h1 m1 s1 ms1 ++ ' ' :: '-' :: '-' :: '>' :: ' ' :: mkTs h2 m2 s2 ms2) ++
        '\r' :: '\n' :: crlfNl e.text) := by
    unfold mkBlock
    rw [hst, het, normalizeTimestamp_mkTs hbh1 hbm1 hbs1,
      normalizeTimestamp_mkTs hbh2 hbm2 hbs2, List.append_assoc]
    rfl
  have hjt : jsTrim (mkBlock n e) = mkBlock n e := by
    refine jsTrim_of_ends ?hh ?hl
    · intro c hc
      obtain ⟨d0, ds, hds⟩ := List.exists_cons_of_ne_nil (natToChars_ne_nil n)
      rw [hmb, hds] at hc
      simp only [List.cons_append, List.head?_cons, Option.some_inj] at hc
      subst hc
      exact jsWs_eq_false_of_isDigit (natToChars_digits n d0 (by rw [hds]; simp))
    · intro c hc
      have hmb2 : mkBlock n e = (natToChars n ++ '\r' :: '\n' ::
          ((mkTs h1 m1 s1 ms1 ++ ' ' :: '-' :: '-' :: '>' :: ' ' :: mkTs h2 m2 s2 ms2) ++
            ['\r', '\n'])) ++ crlfNl e.text := by
        rw [hmb, List.append_assoc, List.cons_append, List.cons_append,
          List.append_assoc]
        rfl
      rw [hmb2, getLast?_append_right _ _ (crlfNl_ne_nil htne), crlfNl_getLast] at hc
      exact goodText_last hgt c hc
  have hsplit : splitNl (mkBlock n e) = natToChars n ::
      (mkTs h1 m1 s1 ms1 ++ ' ' :: '-' :: '-' :: '>' :: ' ' :: mkTs h2 m2 s2 ms2) ::
      splitNl e.text := by
    rw [hmb, splitNl_append_crlf _ (not_nl_natToChars n),
      splitNl_append_crlf _ ?hnt, crlfNl_eq_interc,
      splitNl_interc _ (splitNl_ne_nil _) (splitNl_mem_no_nl _)]
    case hnt =>
      intro hm
      rcases List.mem_append.mp hm with hm | hm
      · exact mkTs_mem_not_nl hm rfl
      · simp only [List.mem_cons, List.not_mem_nil] at hm
        rcases hm with h | h | h | h | h | hm
        · exact absurd h (by decide)
        · exact absurd h (by decide)
        · exact absurd h (by decide)
        · exact absurd h (by decide)
        · exact absurd h (by decide)
        · exact mkTs_mem_not_nl hm rfl
  have hpb : parseBlock (mkBlock n e) =
      match parseIntJS (natToChars n) with
      | none => none
      | some idx =>
        match arrowMatch (mkTs h1 m1 s1 ms1 ++
            ' ' :: '-' :: '-' :: '>' :: ' ' :: mkTs h2 m2 s2 ms2) with
        | none => none
        | some g =>
          some { index := idx, startTime := normalizeTimestamp g.1,
                 endTime := normalizeTimestamp g.2,
                 text := interc ['\n'] (splitNl e.text) } := by
    unfold parseBlock
    rw [hjt, hsplit]
  rw [hpb, parseIntJS_natToChars n, arrowMatch_mkTs]
  simp only []
  rw [normalizeTimestamp_mkTs hbh1 hbm1 hbs1, normalizeTimestamp_mkTs hbh2 hbm2 hbs2,
    ← hst, ← het, normNl_eq_interc]
  rfl

theorem mkBlock_facts (n : Nat) (e : SrtEntryData) (hwf : wfEntry e = true) :
    (mkBlock n e ≠ [] ∧ (∀ c, (mkBlock n e).head? = some c → jsWs c = false) ∧
      ∃ Ls, Ls ≠ [] ∧ mkBlock n e = interc ['\r', '\n'] Ls ∧
        ∀ L ∈ Ls, '\n' ∉ L ∧ L.any (fun c => !jsWs c) = true) ∧
    (∀ c, (mkBlock n e).getLast? = some c → jsWs c = false) := by
  have hwf' := hwf
  simp only [wfEntry, Bool.and_eq_true] at hwf'
  obtain ⟨⟨⟨hcs, hce⟩, _⟩, hgt⟩ := hwf'
  obtain ⟨h1, m1, s1, ms1, hbh1, hbm1, hbs1, hbz1, hst⟩ := canonTs_mkTs hcs
  obtain ⟨h2, m2, s2, ms2, hbh2, hbm2, hbs2, hbz2, het⟩ := canonTs_mkTs hce
  have htne : e.text ≠ [] := goodText_ne_nil hgt
  have hmb : mkBlock n e = natToChars n ++ '\r' :: '\n' ::
      ((mkTs h1 m1 s1 ms1 ++ ' ' :: '-' :: '-' :: '>' :: ' ' :: mkTs h2 m2 s2 ms2) ++
        '\r' :: '\n' :: crlfNl e.text) := by
    unfold mkBlock
    rw [hst, het, normalizeTimestamp_mkTs hbh1 hbm1 hbs1,
      normalizeTimestamp_mkTs hbh2 hbm2 hbs2, List.append_assoc]
    rfl
  obtain ⟨d0, ds, hds⟩ := List.exists_cons_of_ne_nil (natToChars_ne_nil n)
  have hd0 : jsWs d0 = false :=
    jsWs_eq_false_of_isDigit (natToChars_digits n d0 (by rw [hds]; simp))
  have hhd : ∀ c, (mkBlock n e).head? = some c → jsWs c = false := by
    intro c hc
    rw [hmb, hds] at hc
    simp only [List.cons_append, List.head?_cons, Option.some_inj] at hc
    subst hc
    exact hd0
  have hnt : '\n' ∉ mkTs h1 m1 s1 ms1 ++
      ' ' :: '-' :: '-' :: '>' :: ' ' :: mkTs h2 m2 s2 ms2 := by
    intro hm
    rcases List.mem_append.mp hm with hm | hm
    · exact mkTs_mem_not_nl hm rfl
    · simp only [List.mem_cons, List.not_mem_nil] at hm
      rcases hm with h | h | h | h | h | hm
      · exact absurd h (by decide)
      · exact absurd h (by decide)
      · exact absurd h (by decide)
      · exact absurd h (by decide)
      · exact absurd h (by decide)
      · exact mkTs_mem_not_nl hm rfl
  refine ⟨⟨?hne, hhd, ?hLs⟩, ?hlast⟩
  case hne =>
    rw [hmb, hds]
    simp
  case hLs =>
    obtain ⟨S0, Ss, hS⟩ := List.exists_cons_of_ne_nil (splitNl_ne_nil e.text)
    refine ⟨natToChars n :: (mkTs h1 m1 s1 ms1 ++ ' ' :: '-' :: '-' :: '>' :: ' ' ::
        mkTs h2 m2 s2 ms2) :: splitNl e.text, by simp, ?heq, ?hlines⟩
    case heq =>
      rw [hmb]
      conv_rhs => rw [hS, interc_cons2, interc_cons2, List.append_assoc, List.append_assoc]
      rw [crlfNl_eq_interc, hS]
      rfl
    case hlines =>
      intro L hL
      simp only [List.mem_cons] at hL
      rcases hL with rfl | rfl | hL
      · refine ⟨not_nl_natToChars n, ?ha1⟩
        rw [hds]
        simp [List.any_cons, hd0]
      · refine ⟨hnt, ?ha2⟩
        simp [mkTs, List.cons_append, List.any_cons, jsWs_dc]
      · exact goodText_lines hgt L hL
  case hlast =>
    intro c hc
    have hmb2 : mkBlock n e = (natToChars n ++ '\r' :: '\n' ::
        ((mkTs h1 m1 s1 ms1 ++ ' ' :: '-' :: '-' :: '>' :: ' ' :: mkTs h2 m2 s2 ms2) ++
          ['\r', '\n'])) ++ crlfNl e.text := by
      rw [hmb, List.append_assoc, List.cons_append, List.cons_append, List.append_assoc]
      rfl
    rw [hmb2, getLast?_append_right _ _ (crlfNl_ne_nil htne), crlfNl_getLast] at hc
    exact goodText_last hgt c hc

theorem serializeSrtAux_mem : ∀ {es : List SrtEntryData} {n : Nat} {B : List Char},
    B ∈ serializeSrtAux n es → ∃ m e, e ∈ es ∧ B = mkBlock m e := by
  intro es
  induction es with
  | nil => intro n B hB; exact absurd hB (by simp [serializeSrtAux])
  | cons e rest ih =>
    intro n B hB
    rw [show serializeSrtAux n (e :: rest) = mkBlock n e :: serializeSrtAux (n + 1) rest
      from rfl, List.mem_cons] at hB
    rcases hB with rfl | hB
    · exact ⟨n, e, by simp, rfl⟩
    · obtain ⟨m, e', he', hB'⟩ := ih hB
      exact ⟨m, e', by simp [he'], hB'⟩

theorem serializeSrtAux_concat : ∀ (es : List SrtEntryData) (n : Nat), es ≠ [] →
    ∃ ls m e, e ∈ es ∧ serializeSrtAux n es = ls ++ [mkBlock m e] := by
  intro es
  induction es with
  | nil => intro n h; exact absurd rfl h
  | cons e rest ih =>
    intro n _
    cases hr : rest with
    | nil =>
      exact ⟨[], n, e, by simp, rfl⟩
    | cons e2 r2 =>
      obtain ⟨ls, m, e', he', heq⟩ := ih (n + 1) (by rw [hr]; simp)
      rw [hr] at he' heq
      refine ⟨mkBlock n e :: ls, m, e', by simp [he'], ?h2⟩
      rw [show serializeSrtAux n (e :: e2 :: r2) =
          mkBlock n e :: serializeSrtAux (n + 1) (e2 :: r2) from rfl, heq,
        List.cons_append]

theorem serializeSrtAux_parse : ∀ (es : List SrtEntryData) (n : Nat),
    (∀ e ∈ es, wfEntry e = true) →
    (serializeSrtAux n es).filterMap parseBlock = expectedParse n es := by
  intro es
  induction es with
  | nil => intro n _; rfl
  | cons e rest ih =>
    intro n hwf
    rw [show serializeSrtAux n (e :: rest) = mkBlock n e :: serializeSrtAux (n + 1) rest
      from rfl, List.filterMap_cons, parseBlock_mkBlock n e (hwf e (by simp)),
      ih (n + 1) (fun e' he' => hwf e' (by simp [he']))]
    rfl

theorem serializeSrt_trim (es : List SrtEntryData) (hne : es ≠ [])
    (hwf : ∀ e ∈ es, wfEntry e = true) :
    jsTrim (serializeSrt es) = serializeSrt es := by
  obtain ⟨e0, rest, rfl⟩ := List.exists_cons_of_ne_nil hne
  have hblk := mkBlock_facts 1 e0 (hwf e0 (by simp))
  refine jsTrim_of_ends ?hh ?hl
  · intro c hc
    unfold serializeSrt at hc
    rw [show serializeSrtAux 1 (e0 :: rest) = mkBlock 1 e0 :: serializeSrtAux 2 rest
      from rfl, interc_head _ hblk.1.1] at hc
    exact hblk.1.2.1 c hc
  · intro c hc
    obtain ⟨ls, m, e', he', heq⟩ := serializeSrtAux_concat (e0 :: rest) 1 (by simp)
    have hblk' := mkBlock_facts m e' (hwf e' he')
    unfold serializeSrt at hc
    rw [heq, interc_getLast ls _ hblk'.1.1] at hc
    exact hblk'.2 c hc

theorem serializeSrt_ne_nil (es : List SrtEntryData) (hne : es ≠ [])
    (hwf : ∀ e ∈ es, wfEntry e = true) : serializeSrt es ≠ [] := by
  obtain ⟨e0, rest, rfl⟩ := List.exists_cons_of_ne_nil hne
  have hblk := mkBlock_facts 1 e0 (hwf e0 (by simp))
  intro h0
  have hh : (serializeSrt (e0 :: rest)).head? = (mkBlock 1 e0).head? := by
    unfold serializeSrt
    rw [show serializeSrtAux 1 (e0 :: rest) = mkBlock 1 e0 :: serializeSrtAux 2 rest
      from rfl, interc_head _ hblk.1.1]
  rw [h0] at hh
  obtain ⟨b0, bs, hb⟩ := List.exists_cons_of_ne_nil hblk.1.1
  rw [hb] at hh
  simp at hh

theorem parseSrt_serializeSrt (es : List SrtEntryData) (hne : es ≠ [])
    (hwf : ∀ e ∈ es, wfEntry e = true) :
    parseSrt (serializeSrt es) = expectedParse 1 es := by
  unfold parseSrt
  rw [if_neg (serializeSrt_ne_nil es hne hwf), serializeSrt_trim es hne hwf]
  unfold serializeSrt
  rw [splitBlocks_interc _ ?hgood ?hbne]
  · exact serializeSrtAux_parse es 1 hwf
  case hgood =>
    intro B hB
    obtain ⟨m, e', he', rfl⟩ := serializeSrtAux_mem hB
    exact (mkBlock_facts m e' (hwf e' he')).1
  case hbne =>
    obtain ⟨e0, rest, rfl⟩ := List.exists_cons_of_ne_nil hne
    simp [serializeSrtAux]

theorem expectedParse_length : ∀ (es : List SrtEntryData) (n : Nat),
    (expectedParse n es).length = es.length := by
  intro es
  induction es with
  | nil => intro n; rfl
  | cons e rest ih =>
    intro n
    show (expectedParse (n + 1) rest).length + 1 = rest.length + 1
    rw [ih (n + 1)]

theorem expectedParse_getq : ∀ (es : List SrtEntryData) (n i : Nat),
    (expectedParse n es).get? i = (es.get? i).map (fun e =>
      { index := ((n + i : Nat) : Int), startTime := e.startTime,
        endTime := e.endTime, text := normNl e.text }) := by
  intro es
  induction es with
  | nil => intro n i; simp [expectedParse]
  | cons e rest ih =>
    intro n i
    cases i with
    | zero => simp [expectedParse]
    | succ j =>
      have harith : n + 1 + j = n + (j + 1) := by omega
      show (expectedParse (n + 1) rest).get? j = _
      rw [ih (n + 1) j, harith]
      rfl

/-- C1 (amended): for every non-empty collection of well-formed entries
(canonical sub-100-hour timestamps, start not after end, and text whose
every line contains a non-whitespace character and whose final character is
not whitespace), parseSrt (serializeSrt entries) has the same length as the
input, and each parsed entry reproduces the original entry's startTime,
endTime, and text modulo line-ending normalization. -/
theorem c1_roundtrip (es : List SrtEntryData) (hne : es ≠ [])
    (hwf : ∀ e ∈ es, wfEntry e = true) :
    (parseSrt (serializeSrt es)).length = es.length ∧
    ∀ (i : Nat) (e e' : SrtEntryData), es.get? i = some e →
      (parseSrt (serializeSrt es)).get? i = some e' →
      e'.startTime = e.startTime ∧ e'.endTime = e.endTime ∧ e'.text = normNl e.text := by
  rw [parseSrt_serializeSrt es hne hwf]
  refine ⟨expectedParse_length es 1, ?hg⟩
  intro i e e' he he'
  rw [expectedParse_getq, he] at he'
  simp only [Option.map_some', Option.some_inj] at he'
  rw [← he']
  exact ⟨rfl, rfl, rfl⟩

/-- C1 counterexample: the single entry with text "a " (one line, no blank
lines, canonical timestamps, start before end) satisfies all hypotheses of
the claim, yet re-parsing its serialization yields text "a": the
`block.trim()` of parseSrt removes the trailing space, which line-ending
normalization alone would keep. -/
theorem c1_counterexample :
    canonTs "00:00:00,000".data = true ∧ canonTs "00:00:01,000".data = true ∧
    timestampToMs "00:00:00,000".data ≤ timestampToMs "00:00:01,000".data ∧
    (∀ L ∈ splitNl ('a' :: ' ' :: []), L ≠ []) ∧
    (parseSrt (serializeSrt
        [⟨1, "00:00:00,000".data, "00:00:01,000".data, 'a' :: ' ' :: []⟩])).map
      (fun e => e.text) ≠ [normNl ('a' :: ' ' :: [])] := by
  decide

/-- Witness for C1 (amended) on a concrete two-entry collection whose second
entry has a two-line text. -/
theorem c1_roundtrip_witness :
    (parseSrt (serializeSrt
        [⟨1, "00:00:00,000".data, "00:00:01,000".data, "a".data⟩,
         ⟨2, "00:00:01,500".data, "00:00:02,000".data, 'b' :: '\n' :: 'c' :: []⟩])).length =
      [⟨1, "00:00:00,000".data, "00:00:01,000".data, "a".data⟩,
       (⟨2, "00:00:01,500".data, "00:00:02,000".data,
         'b' :: '\n' :: 'c' :: []⟩ : SrtEntryData)].length ∧
    ∀ (i : Nat) (e e' : SrtEntryData),
      [⟨1, "00:00:00,000".data, "00:00:01,000".data, "a".data⟩,
       (⟨2, "00:00:01,500".data, "00:00:02,000".data,
         'b' :: '\n' :: 'c' :: []⟩ : SrtEntryData)].get? i = some e →
      (parseSrt (serializeSrt
        [⟨1, "00:00:00,000".data, "00:00:01,000".data, "a".data⟩,
         ⟨2, "00:00:01,500".data, "00:00:02,000".data,
           'b' :: '\n' :: 'c' :: []⟩])).get? i = some e' →
      e'.startTime = e.startTime ∧ e'.endTime = e.endTime ∧ e'.text = normNl e.text :=
  c1_roundtrip
    [⟨1, "00:00:00,000".data, "00:00:01,000".data, "a".data⟩,
     ⟨2, "00:00:01,500".data, "00:00:02,000".data, 'b' :: '\n' :: 'c' :: []⟩]
    (by decide) (by decide)
